import Mathlib

/-!
Shallow embedding of `src/backend/src/compile.rs` (the lowering engine of the
`ende` compiler backend) together with a reference interpreter, and theorems
settling the frozen claims about it.

Modelling conventions:
* LLVM value references (`LLVMValueRef`) are modelled by `Val`: integer
  constants (`LLVMConstInt`) are `Val.constInt`, instruction results are
  `Val.ref id` with `id` drawn from a fresh-id counter in the builder state,
  and the handle returned by `LLVMGetNamedFunction` is `Val.funcref`.
* The module/builder pair (`LLVMModuleRef`, `LLVMBuilderRef`) is the state
  `St`: a list of declared functions, a list of basic blocks each holding its
  emitted instructions in order, and the current insertion block.  All LLVM
  `Build*` calls append to the current block; nothing ever modifies an
  already-emitted instruction, mirroring the C API as used by the source.
* Machine integers: the language has a single `i32` type.  Values are `Int`
  normalised by `wrap` (two's-complement 32-bit, written with explicit `%`).
* `HashSet`/`HashMap` are modelled by association lists up to membership.
  The source iterates a `HashMap` (While arm) and a `HashSet` (`decl_funcs`);
  those iteration orders are unspecified in Rust, so the corresponding
  iteration points take an order oracle (a permutation) as a parameter.
* Rust `Result<T, Vec<String>>` is `Except (List String) T`; the `try!`
  places in the source short-circuit on the error while keeping the module
  state mutated so far, which the explicit state threading reproduces.
-/

set_option maxHeartbeats 1000000

namespace Ende

/-- Modelled from the spec, section 3 (the `ast` crate is the parser's and is
not part of the backend source): the binary arithmetic operators. -/
inductive Operator where
  | Add
  | Sub
  | Mul
  | Div
deriving DecidableEq, Repr

/-- Modelled from the spec, section 3: a call site record carrying the callee
name and the arity observed at that site (fields `name` and `arity` of the
`ast` crate's `FunctionCall`, which derives `Hash`/`Eq` on both fields). -/
structure FunctionCall where
  name : String
  arity : Nat
deriving DecidableEq, Repr, BEq

mutual
/-- Modelled from the spec, section 3: expression nodes of the `ast` crate,
with the shapes used by `compile.rs` (`Literal`, `Var`, `Infix`, `Call`,
`Scope`, `While`).  Argument and statement sequences are the dedicated list
types `TermList`/`StmtList` of the same mutual family (rather than nested
`List`s) so that all recursion over the tree is structural. -/
inductive Term where
  | Literal : Int → Term
  | Var : String → Term
  | Infix : Term → Operator → Term → Term
  | Call : FunctionCall → TermList → Term
  | Scope : Block → Term
  | While : Term → Block → Term

/-- A sequence of argument expressions at a call site. -/
inductive TermList where
  | nil : TermList
  | cons : Term → TermList → TermList

/-- Modelled from the spec, section 3: statement nodes of the `ast` crate. -/
inductive Statement where
  | TermSemicolon : Term → Statement
  | Let : String → Term → Statement
  | LetMut : String → Term → Statement
  | Mutate : String → Term → Statement

/-- A sequence of statements. -/
inductive StmtList where
  | nil : StmtList
  | cons : Statement → StmtList → StmtList

/-- Modelled from the spec, section 3: a block is a statement list plus a
trailing expression (`stmts` and `end` in the `ast` crate). -/
inductive Block where
  | mk : StmtList → Term → Block
end

/-- `Levity` from `compile.rs`: `Boxed` or `Unboxed(i32)`. -/
inductive Levity where
  | Boxed
  | Unboxed : Int → Levity
deriving DecidableEq, Repr

/-- An LLVM value reference as used by the source: an integer constant, an
instruction result (identified by a fresh id), or a named-function handle. -/
inductive Val where
  | constInt : Int → Val
  | ref : Nat → Val
  | funcref : String → Val
deriving DecidableEq, Repr

/-- The instructions emitted through the LLVM builder calls that appear in
`compile.rs`.  Each carries the operands and, where the source passes one,
the name string handed to the builder. -/
inductive Instr where
  | add : Val → Val → String → Instr
  | sub : Val → Val → String → Instr
  | mul : Val → Val → String → Instr
  | sdiv : Val → Val → String → Instr
  | icmpeq : Val → Val → String → Instr
  | load : Val → String → Instr
  | store : Val → Val → Instr
  | alloca : String → Instr
  | phi : Bool → List (Val × Nat) → String → Instr
  | condbr : Val → Nat → Nat → Instr
  | call : Val → List Val → Nat → String → Instr
  | ret : Val → Instr
deriving DecidableEq, Repr

/-- A basic block: its id, its name, and its instructions in emission order,
each paired with the fresh id of its result value. -/
structure BB where
  bid : Nat
  bname : String
  instrs : List (Nat × Instr)
deriving DecidableEq, Repr

/-- The module-and-builder state: fresh-id counters, the blocks of the entry
function, the current insertion block, and the declared functions. -/
structure St where
  counter : Nat
  bcounter : Nat
  cur : Nat
  blocks : List BB
  decls : List (String × Nat)
deriving DecidableEq, Repr

/-- The symbol environment `Map<'a> = HashMap<&str, (LLVMValueRef, Levity)>`,
modelled as an association list with unique keys. -/
abbrev Env := List (String × (Val × Levity))

/-- `HashMap::get`. -/
def lookupE : Env → String → Option (Val × Levity)
  | [], _ => none
  | (k, p) :: rest, n => if k = n then some p else lookupE rest n

/-- `HashMap::insert`: replace the binding if the key is present, otherwise
append it. -/
def insertE : Env → String → (Val × Levity) → Env
  | [], n, p => [(n, p)]
  | (k, q) :: rest, n, p =>
    if k = n then (n, p) :: rest else (k, q) :: insertE rest n p

/-- Append an instruction to the block with id `c` (the builder's current
insertion point); all `LLVMBuild*` calls go through this. -/
def addInstr : List BB → Nat → (Nat × Instr) → List BB
  | [], _, _ => []
  | b :: rest, c, i =>
    if b.bid = c then { b with instrs := b.instrs ++ [i] } :: rest
    else b :: addInstr rest c i

/-- Emit one instruction at the current insertion point, returning the fresh
value reference of its result. -/
def emit (st : St) (i : Instr) : St × Val :=
  ({ st with
      counter := st.counter + 1,
      blocks := addInstr st.blocks st.cur (st.counter, i) },
   Val.ref st.counter)

/-- Emit an instruction whose result value the source discards. -/
def emitD (st : St) (i : Instr) : St := (emit st i).1

/-- `LLVMAppendBasicBlock`. -/
def appendBlock (st : St) (nm : String) : St × Nat :=
  ({ st with
      bcounter := st.bcounter + 1,
      blocks := st.blocks ++ [⟨st.bcounter, nm, []⟩] },
   st.bcounter)

/-- `LLVMPositionBuilderAtEnd`. -/
def setCur (st : St) (b : Nat) : St := { st with cur := b }

/-- Two's-complement 32-bit normalisation: the signed value of the low 32
bits of `z`. -/
def wrap (z : Int) : Int := (z + 2147483648) % 4294967296 - 2147483648

/-- `LLVMBuildAdd` result semantics on i32. -/
def add32 (a b : Int) : Int := wrap (a + b)

/-- `LLVMBuildSub` result semantics on i32. -/
def sub32 (a b : Int) : Int := wrap (a - b)

/-- `LLVMBuildMul` result semantics on i32. -/
def mul32 (a b : Int) : Int := wrap (a * b)

/-- `LLVMBuildSDiv` result semantics on i32 (truncated signed division). -/
def sdiv32 (a b : Int) : Int := wrap (Int.tdiv a b)

/-- `ToRaw::to_raw` for `&str`: `CString::new` fails exactly when the string
contains an interior NUL byte; the error message is the `NulError`
description.  (The raw pointer itself is immaterial; the model keeps the
string.) -/
def toRaw (s : String) : Except (List String) String :=
  if s.data.contains '\x00' then .error ["nul byte found in provided data"]
  else .ok s

/-- `LLVMConstIntGetSExtValue`.  On a non-constant value the real call is
undefined (the source only ever stores the result in an `Unboxed` payload
that is never read); the model returns 0 there. -/
def constIntGetSExtValue : Val → Int
  | .constInt z => z
  | _ => 0

mutual
/-- `Term::rhs_vars` from `compile.rs`.  `HashSet<&str>` is modelled as a
list up to membership, so set union becomes append. -/
def rhsVarsT : Term → List String
  | .Literal _ => []
  | .Var n => [n]
  | .Infix l _ r => rhsVarsT l ++ rhsVarsT r
  | .Call _ args => rhsVarsTs args
  | .Scope b => rhsVarsB b
  | .While c b => rhsVarsT c ++ rhsVarsB b

/-- The fold over call arguments inside `Term::rhs_vars`. -/
def rhsVarsTs : TermList → List String
  | .nil => []
  | .cons t ts => rhsVarsT t ++ rhsVarsTs ts

/-- `Statement::rhs_vars` from `compile.rs`. -/
def rhsVarsS : Statement → List String
  | .TermSemicolon t => rhsVarsT t
  | .Let _ r => rhsVarsT r
  | .LetMut _ r => rhsVarsT r
  | .Mutate _ r => rhsVarsT r

/-- The fold over statements inside `Block::rhs_vars`. -/
def rhsVarsSs : StmtList → List String
  | .nil => []
  | .cons s ss => rhsVarsS s ++ rhsVarsSs ss

/-- `Block::rhs_vars` from `compile.rs`. -/
def rhsVarsB : Block → List String
  | .mk ss e => rhsVarsSs ss ++ rhsVarsT e
end

/-- `HashSet<&FunctionCall>` union, modelled as a list union that keeps the
left operand's elements and appends the unseen elements of the right one
(deduplicating by `FunctionCall` equality, i.e. name and arity). -/
def unionFC (l r : List FunctionCall) : List FunctionCall :=
  l ++ r.filter (fun x => !(l.contains x))

mutual
/-- `FuncsDecl::find_funcs` for `Term` from `compile.rs`.  Note that the
Call arm checks for a name clash against the just-created *empty* set
`func_calls`, so the check can never fire; the translation keeps it
verbatim. -/
def findFuncsT : Term → Except String (List FunctionCall)
  | .Literal _ => .ok []
  | .Var _ => .ok []
  | .Infix l _ r =>
    match findFuncsT l with
    | .error e => .error e
    | .ok fl =>
      match findFuncsT r with
      | .error e => .error e
      | .ok fr => .ok (unionFC fl fr)
  | .Call call args =>
    let funcCalls : List FunctionCall := []
    if funcCalls.any (fun oldCall => oldCall.name == call.name) then
      .error (call.name ++ " is called with different parameters.")
    else
      findFuncsArgs args (unionFC funcCalls [call])
  | .Scope b => findFuncsB b
  | .While c b =>
    match findFuncsT c with
    | .error e => .error e
    | .ok fc =>
      match findFuncsB b with
      | .error e => .error e
      | .ok fb => .ok (unionFC fc fb)

/-- The `for arg in *args` union loop inside the Call arm of `find_funcs`. -/
def findFuncsArgs : TermList → List FunctionCall → Except String (List FunctionCall)
  | .nil, acc => .ok acc
  | .cons a rest, acc =>
    match findFuncsT a with
    | .error e => .error e
    | .ok fa => findFuncsArgs rest (unionFC acc fa)

/-- `FuncsDecl::find_funcs` for `Statement` from `compile.rs`. -/
def findFuncsS : Statement → Except String (List FunctionCall)
  | .TermSemicolon t => findFuncsT t
  | .Let _ r => findFuncsT r
  | .LetMut _ r => findFuncsT r
  | .Mutate _ r => findFuncsT r

/-- The statement union loop inside `find_funcs` for `Block`. -/
def findFuncsSs : StmtList → List FunctionCall → Except String (List FunctionCall)
  | .nil, acc => .ok acc
  | .cons s rest, acc =>
    match findFuncsS s with
    | .error e => .error e
    | .ok fs => findFuncsSs rest (unionFC acc fs)

/-- `FuncsDecl::find_funcs` for `Block` from `compile.rs`. -/
def findFuncsB : Block → Except String (List FunctionCall)
  | .mk ss e =>
    match findFuncsSs ss [] with
    | .error err => .error err
    | .ok fs =>
      match findFuncsT e with
      | .error err => .error err
      | .ok fe => .ok (unionFC fs fe)
end

/-- The error-collecting fold over the built call arguments in the Call arm
of `Term::build` (`result_args` in the source).  Successful values are pushed
in order; once an error appears, the errors of the *current* element are
prepended to the accumulated ones (the source clones the element's errors
and appends the accumulator's), so the final list carries later arguments'
errors first. -/
def collectStep (left : Except (List String) (List Val))
    (right : Except (List String) Val) : Except (List String) (List Val) :=
  match right with
  | .ok rightVal =>
    match left with
    | .ok vec => .ok (vec ++ [rightVal])
    | .error err => .error err
  | .error leftErrors =>
    match left with
    | .ok _ => .error leftErrors
    | .error rightErrors => .error (leftErrors ++ rightErrors)

/-- The fold itself. -/
def collectArgs (results : List (Except (List String) Val)) :
    Except (List String) (List Val) :=
  results.foldl collectStep (.ok [])

/-- The phi-building `for (key, pair) in &env` loop of the While arm of
`Term::build`.  It walks the environment in the `HashMap`'s (unspecified)
iteration order — the caller passes the already-ordered pair list — and, for
each key read by the condition, emits a phi whose incoming edges are the
pre-loop value from the function entry block and the *phi itself* from the
loop block (the builder's current block), updating `new_env` (here the
accumulator `newEnv`, which starts as a clone of `env`).  The Unboxed arm
reads the pair back from `new_env` (`new_env.get(key).unwrap()`); keys of a
`HashMap` are distinct so the lookup succeeds, and the model defaults to the
iterated pair. -/
def buildPhis (entry : Nat) (condVars : List String) :
    List (String × (Val × Levity)) → Env → St →
    St × Except (List String) Env
  | [], newEnv, st => (st, .ok newEnv)
  | (key, (v, lev)) :: rest, newEnv, st =>
    if condVars.contains key then
      match lev with
      | .Boxed =>
        let selfId := st.counter
        let (st1, phi) :=
          emit st (.phi true [(v, entry), (.ref selfId, st.cur)] key)
        buildPhis entry condVars rest (insertE newEnv key (phi, .Boxed)) st1
      | .Unboxed k =>
        match toRaw key with
        | .error e => (st, .error e)
        | .ok nm =>
          let pair := (lookupE newEnv key).getD (v, .Unboxed k)
          let selfId := st.counter
          let (st1, phi) :=
            emit st (.phi false [(pair.1, entry), (.ref selfId, st.cur)] nm)
          buildPhis entry condVars rest (insertE newEnv key (phi, pair.2)) st1
    else buildPhis entry condVars rest newEnv st

mutual
/-- `Term::build` from `compile.rs` (`Compile` for `Term`).  The parameters
`module`, `func`, `builder` live in the state `st`; `entry` is the entry
basic block passed down unchanged from `init_module`; `σ` is the iteration
order of the environment `HashMap` consulted by the While arm.  `to_raw` on
the NUL-free string literals of the source ("add", "iszero", "load", …)
cannot fail and is modelled as the name itself. -/
def buildTerm (σ : Env → Env) (entry : Nat) :
    Term → Env → St → St × Except (List String) Val
  | .Literal i, _, st => (st, .ok (.constInt (wrap i)))
  | .Infix l op r, env, st =>
    match buildTerm σ entry l env st with
    | (st1, .error e) => (st1, .error e)
    | (st1, .ok lv) =>
      match buildTerm σ entry r env st1 with
      | (st2, .error e) => (st2, .error e)
      | (st2, .ok rv) =>
        match op with
        | .Add => let p := emit st2 (.add lv rv "add"); (p.1, .ok p.2)
        | .Sub => let p := emit st2 (.sub lv rv "sub"); (p.1, .ok p.2)
        | .Mul => let p := emit st2 (.mul lv rv "mul"); (p.1, .ok p.2)
        | .Div => let p := emit st2 (.sdiv lv rv "div"); (p.1, .ok p.2)
  | .Call funcCall args, env, st =>
    match toRaw funcCall.name with
    | .error e => (st, .error e)
    | .ok fname =>
      let llvmFunc := Val.funcref fname
      let (st1, results) := buildArgs σ entry args env st
      match collectArgs results with
      | .error e => (st1, .error e)
      | .ok vals =>
        match toRaw ("call" ++ funcCall.name) with
        | .error e => (st1, .error e)
        | .ok cname =>
          let p := emit st1 (.call llvmFunc vals funcCall.arity cname)
          (p.1, .ok p.2)
  | .Var n, env, st =>
    match lookupE env n with
    | some (v, .Boxed) => let p := emit st (.load v "load"); (p.1, .ok p.2)
    | some (v, .Unboxed _) => (st, .ok v)
    | none => (st, .error ["Variable " ++ n ++ " is not declared yet."])
  | .Scope blk, env, st => buildBlock σ entry blk env st
  | .While cond blk, env, st =>
    match buildTerm σ entry cond env st with
    | (st1, .error e) => (st1, .error e)
    | (st1, .ok builtCond) =>
      let zero := Val.constInt 0
      let p1 := emit st1 (.icmpeq builtCond zero "iszero")
      let (st3, loopB) := appendBlock p1.1 "loop"
      let (st4, afterB) := appendBlock st3 "afterloop"
      let st5 := emitD st4 (.condbr p1.2 afterB loopB)
      let st6 := setCur st5 loopB
      match buildPhis entry (rhsVarsT cond) (σ env) env st6 with
      | (st7, .error e) => (st7, .error e)
      | (st7, .ok newEnv) =>
        match buildBlock σ entry blk newEnv st7 with
        | (st8, .error e) => (st8, .error e)
        | (st8, .ok _) =>
          match buildTerm σ entry cond newEnv st8 with
          | (st9, .error e) => (st9, .error e)
          | (st9, .ok builtCond2) =>
            let p2 := emit st9 (.icmpeq builtCond2 zero "iszero")
            let st10 := emitD p2.1 (.condbr p2.2 afterB loopB)
            (setCur st10 afterB, .ok zero)

/-- The `args.iter().map(|term| term.build(..., env.clone())).collect()` of
the Call arm: every argument is built against the entry environment, the
builder state threads through all of them, and the individual results are
collected. -/
def buildArgs (σ : Env → Env) (entry : Nat) :
    TermList → Env → St → St × List (Except (List String) Val)
  | .nil, _, st => (st, [])
  | .cons t ts, env, st =>
    let (st1, r) := buildTerm σ entry t env st
    let (st2, rs) := buildArgs σ entry ts env st1
    (st2, r :: rs)

/-- The statement loop of `Block::build` from `compile.rs`, returning the
environment after the statements.  In the Mutate arm the lookup result is
computed first but the right-hand side is built before it is inspected,
exactly as in the source. -/
def buildStmts (σ : Env → Env) (entry : Nat) :
    StmtList → Env → St → St × Except (List String) Env
  | .nil, env, st => (st, .ok env)
  | .cons s rest, env, st =>
    match s with
    | .TermSemicolon t =>
      match buildTerm σ entry t env st with
      | (st1, .error e) => (st1, .error e)
      | (st1, .ok _) => buildStmts σ entry rest env st1
    | .Let lhs rhs =>
      match buildTerm σ entry rhs env st with
      | (st1, .error e) => (st1, .error e)
      | (st1, .ok v) =>
        let contentVal := constIntGetSExtValue v
        buildStmts σ entry rest (insertE env lhs (v, .Unboxed contentVal)) st1
    | .LetMut lhs rhs =>
      let pa := emit st (.alloca lhs)
      match buildTerm σ entry rhs env pa.1 with
      | (st1, .error e) => (st1, .error e)
      | (st1, .ok v) =>
        buildStmts σ entry rest (insertE env lhs (pa.2, .Boxed))
          (emitD st1 (.store v pa.2))
    | .Mutate lhs rhs =>
      let varResult : Except (List String) (Val × Levity) :=
        match lookupE env lhs with
        | some var => .ok var
        | none => .error ["Variable " ++ lhs ++ " is not declared yet."]
      match buildTerm σ entry rhs env st with
      | (st1, .error e) => (st1, .error e)
      | (st1, .ok builtRhs) =>
        match varResult with
        | .error e => (st1, .error e)
        | .ok (w, .Boxed) =>
          buildStmts σ entry rest env (emitD st1 (.store builtRhs w))
        | .ok (_, .Unboxed _) =>
          (st1, .error ["Variable " ++ lhs ++
                        " is immutable, so it cannot be mutated."])

/-- `Block::build` from `compile.rs` (`Compile` for `Block`): thread the
environment through the statements, then build the trailing expression. -/
def buildBlock (σ : Env → Env) (entry : Nat) :
    Block → Env → St → St × Except (List String) Val
  | .mk stmts e, env, st =>
    match buildStmts σ entry stmts env st with
    | (st1, .error err) => (st1, .error err)
    | (st1, .ok env1) => buildTerm σ entry e env1 st1
end

/-- The `for func in funcs` loop of `FuncsDecl::decl_funcs`: declare each
discovered callee (`LLVMAddFunction` with `arity` i32 parameters), in the
`HashSet`'s (unspecified) iteration order; `to_raw` on a callee name with an
interior NUL fails with the first (only) message of the NUL error. -/
def declLoop : List FunctionCall → St → St × Except String Unit
  | [], st => (st, .ok ())
  | f :: fs, st =>
    match toRaw f.name with
    | .error es => (st, .error (es.headD ""))
    | .ok nm => declLoop fs { st with decls := st.decls ++ [(nm, f.arity)] }

/-- `FuncsDecl::decl_funcs` for `Block`: run `find_funcs`, then declare every
discovered callee.  `σf` is the iteration order of the result set. -/
def declFuncs (σf : List FunctionCall → List FunctionCall) (b : Block)
    (st : St) : St × Except String Unit :=
  match findFuncsB b with
  | .error e => (st, .error e)
  | .ok funcs => declLoop (σf funcs) st

/-- `Compile::init_module` for `Block`: append the entry block, position the
builder there, build the program against a fresh empty environment, and
return the result value (`LLVMBuildRet`). -/
def initModule (σ : Env → Env) (b : Block) (st : St) :
    Except (List String) St :=
  let (st1, entryB) := appendBlock st "entry"
  let st2 := setCur st1 entryB
  match buildBlock σ entryB b [] st2 with
  | (_, .error es) => .error es
  | (st3, .ok v) => .ok (emitD st3 (.ret v))

/-- The fresh module of `gen_module` right after `LLVMModuleCreateWithName`
("Main") and the declaration of the entry function `main` (no parameters,
i32 return). -/
def st0 : St :=
  { counter := 0, bcounter := 0, cur := 0, blocks := [],
    decls := [("main", 0)] }

/-- `Compile::gen_module` for `Block`: create the module and the `main`
declaration, declare the callees, then build the entry function.  Each step
is wrapped in `try!`, so a failing step returns its errors at once and the
later steps never run. -/
def genModule (σ : Env → Env) (σf : List FunctionCall → List FunctionCall)
    (b : Block) : Except (List String) St :=
  match declFuncs σf b st0 with
  | (_, .error e) => .error [e]
  | (st1, .ok _) => initModule σ b st1

/-! ## Execution semantics of the generated straight-line code

The modules the claims execute (arithmetic, allocas, loads, stores, return)
consist of a single `entry` block; the executor below gives those
instructions their LLVM meaning.  Control-flow instructions make it stop,
undefined, which no executed claim program reaches. -/

/-- A run-time value: an i32 or the address of an alloca (identified by the
alloca instruction's fresh id). -/
inductive XVal where
  | int : Int → XVal
  | addr : Nat → XVal
deriving DecidableEq, Repr

/-- The register file: instruction id to computed value. -/
abbrev Regs := List (Nat × XVal)

/-- Memory: alloca id to stored i32. -/
abbrev Mem := List (Nat × Int)

/-- Register lookup. -/
def lookupR : Regs → Nat → Option XVal
  | [], _ => none
  | (k, x) :: rest, n => if k = n then some x else lookupR rest n

/-- Memory lookup. -/
def lookupM : Mem → Nat → Option Int
  | [], _ => none
  | (k, x) :: rest, n => if k = n then some x else lookupM rest n

/-- Evaluate an operand against the register file. -/
def evalOp (regs : Regs) : Val → Option XVal
  | .constInt z => some (.int z)
  | .ref i => lookupR regs i
  | .funcref _ => none

/-- Read an operand as an i32. -/
def evalInt (regs : Regs) (v : Val) : Option Int :=
  match evalOp regs v with
  | some (.int z) => some z
  | _ => none

/-- Read an operand as an address. -/
def evalAddr (regs : Regs) (v : Val) : Option Nat :=
  match evalOp regs v with
  | some (.addr a) => some a
  | _ => none

/-- Execute one non-terminating straight-line instruction. -/
def step : (Nat × Instr) → Regs → Mem → Option (Regs × Mem)
  | (id, .add a b _), regs, mem => do
    let x ← evalInt regs a
    let y ← evalInt regs b
    some ((id, .int (add32 x y)) :: regs, mem)
  | (id, .sub a b _), regs, mem => do
    let x ← evalInt regs a
    let y ← evalInt regs b
    some ((id, .int (sub32 x y)) :: regs, mem)
  | (id, .mul a b _), regs, mem => do
    let x ← evalInt regs a
    let y ← evalInt regs b
    some ((id, .int (mul32 x y)) :: regs, mem)
  | (id, .sdiv a b _), regs, mem => do
    let x ← evalInt regs a
    let y ← evalInt regs b
    some ((id, .int (sdiv32 x y)) :: regs, mem)
  | (id, .icmpeq a b _), regs, mem => do
    let x ← evalInt regs a
    let y ← evalInt regs b
    some ((id, .int (if x = y then 1 else 0)) :: regs, mem)
  | (id, .alloca _), regs, mem => some ((id, .addr id) :: regs, mem)
  | (_, .store v p), regs, mem => do
    let x ← evalInt regs v
    let a ← evalAddr regs p
    some (regs, (a, x) :: mem)
  | (id, .load p _), regs, mem => do
    let a ← evalAddr regs p
    let z ← lookupM mem a
    some ((id, .int z) :: regs, mem)
  | (_, .phi _ _ _), _, _ => none
  | (_, .condbr _ _ _), _, _ => none
  | (_, .call _ _ _ _), _, _ => none
  | (_, .ret _), _, _ => none

/-- Run a list of straight-line instructions. -/
def runList : List (Nat × Instr) → Regs → Mem → Option (Regs × Mem)
  | [], regs, mem => some (regs, mem)
  | i :: rest, regs, mem =>
    match step i regs mem with
    | some (regs1, mem1) => runList rest regs1 mem1
    | none => none

/-- Run instructions until the first `ret`, whose operand is the function's
result. -/
def runStraight : List (Nat × Instr) → Regs → Mem → Option Int
  | [], _, _ => none
  | (id, ins) :: rest, regs, mem =>
    match ins with
    | .ret v => evalInt regs v
    | _ =>
      match step (id, ins) regs mem with
      | some (regs1, mem1) => runStraight rest regs1 mem1
      | none => none

/-- Execute the entry function of a finished module: run the `entry` block
(block id 0). -/
def execMain (m : St) : Option Int :=
  match m.blocks.find? (fun bb => bb.bid = 0) with
  | some bb => runStraight bb.instrs [] []
  | none => none

/-- Compile a program with `gen_module` and execute its entry function;
`none` if compilation fails. -/
def execGen (σ : Env → Env) (σf : List FunctionCall → List FunctionCall)
    (b : Block) : Option Int :=
  match genModule σ σf b with
  | .error _ => none
  | .ok m => execMain m

/-! ## Reference interpreter and the Let-and-arithmetic fragment

The claim about functional correctness (C1) restricts programs to immutable
`Let` statements and expressions made of literals, variables and the
arithmetic infix operators; the interpreter below gives that fragment its
meaning directly (i32 arithmetic, environments as name-to-integer maps). -/

/-- Interpreter environment. -/
abbrev IEnv := List (String × Int)

/-- Interpreter environment lookup. -/
def lookupI : IEnv → String → Option Int
  | [], _ => none
  | (k, z) :: rest, n => if k = n then some z else lookupI rest n

/-- Interpreter environment binding (persistent update). -/
def insertI : IEnv → String → Int → IEnv
  | [], n, z => [(n, z)]
  | (k, w) :: rest, n, z =>
    if k = n then (n, z) :: rest else (k, w) :: insertI rest n z

/-- The meaning of an infix operator on i32. -/
def opSem : Operator → Int → Int → Int
  | .Add => add32
  | .Sub => sub32
  | .Mul => mul32
  | .Div => sdiv32

/-- Reference interpreter for expressions of the Let-and-arithmetic
fragment: literals, variables and infix arithmetic; other expression forms
are outside the fragment. -/
def interpTerm : Term → IEnv → Option Int
  | .Literal i, _ => some (wrap i)
  | .Var n, env => lookupI env n
  | .Infix l op r, env =>
    match interpTerm l env with
    | none => none
    | some a =>
      match interpTerm r env with
      | none => none
      | some b => some (opSem op a b)
  | _, _ => none

/-- Reference interpreter for the statements of the fragment (immutable
`Let` bindings only). -/
def interpStmts : StmtList → IEnv → Option IEnv
  | .nil, env => some env
  | .cons (.Let n r) rest, env =>
    match interpTerm r env with
    | none => none
    | some z => interpStmts rest (insertI env n z)
  | .cons _ _, _ => none

/-- Reference interpreter for a fragment program: run the statements, then
the trailing expression. -/
def interpBlock : Block → IEnv → Option Int
  | .mk ss e, env =>
    match interpStmts ss env with
    | none => none
    | some env1 => interpTerm e env1

/-- Expressions of the fragment: literals, variables, arithmetic. -/
def pureTerm : Term → Bool
  | .Literal _ => true
  | .Var _ => true
  | .Infix l _ r => pureTerm l && pureTerm r
  | _ => false

/-- Statement sequences of the fragment: every statement is an immutable
`Let` whose right-hand side is a fragment expression. -/
def letStmts : StmtList → Bool
  | .nil => true
  | .cons (.Let _ r) rest => pureTerm r && letStmts rest
  | .cons _ _ => false

/-- Programs of the fragment: `Let`-only statements and a fragment trailing
expression. -/
def letBlock : Block → Bool
  | .mk ss e => letStmts ss && pureTerm e

/-- The identity iteration order (one admissible `HashMap`/`HashSet`
order). -/
def idOrd {α : Type} : List α → List α := fun l => l

/-- The reversed iteration order (another admissible `HashMap` order: any
permutation of the entries can occur, the `RandomState` seed being
unspecified). -/
def revOrd {α : Type} : List α → List α := fun l => l.reverse

/-- The state right after `init_module` appends the `entry` block and
positions the builder there (for a program with no callees). -/
def stEntry : St := setCur (appendBlock st0 "entry").1 0

/-- Extract the module from a successful `gen_module` run (defaulting to the
fresh module on failure). -/
def getModule (r : Except (List String) St) : St :=
  match r with
  | .ok m => m
  | .error _ => st0

/-- Forget the error list of a `gen_module` result. -/
def modOpt (r : Except (List String) St) : Option St :=
  match r with
  | .ok m => some m
  | .error _ => none

/-- Look a name up in the environment returned by a statement-lowering
run. -/
def envResLookup (r : St × Except (List String) Env) (n : String) :
    Option (Val × Levity) :=
  match r.2 with
  | .ok env => lookupE env n
  | .error _ => none

/-- The phi instructions of one basic block:
(result id, block id, pointer-typed?, incoming edges, name). -/
def phisOfBB (bb : BB) : List (Nat × Nat × Bool × List (Val × Nat) × String) :=
  bb.instrs.filterMap (fun p =>
    match p.2 with
    | .phi isPtr inc nm => some (p.1, bb.bid, isPtr, inc, nm)
    | _ => none)

/-- All phi instructions of a module. -/
def phisOf (m : St) : List (Nat × Nat × Bool × List (Val × Nat) × String) :=
  (m.blocks.map phisOfBB).flatten

/-- Is a result successful? -/
def isOkB {E α : Type} : Except E α → Bool
  | .ok _ => true
  | .error _ => false

/-- The value of a successful result. -/
def okVal : Except (List String) Val → Option Val
  | .ok v => some v
  | .error _ => none

/-- The error list of a failed result. -/
def errVal : Except (List String) Val → Option (List String)
  | .ok _ => none
  | .error e => some e

/-! ### Concrete programs used by the claims -/

/-- `let x = 3; while x { let x = 5; 0 }; 0` — a loop whose body rebinds the
condition variable, separating the post-body environment from the merge
point. -/
def PC2 : Block :=
  .mk (.cons (.Let "x" (.Literal 3))
       (.cons (.TermSemicolon (.While (.Var "x")
         (.mk (.cons (.Let "x" (.Literal 5)) .nil) (.Literal 0)))) .nil))
    (.Literal 0)

/-- The module `gen_module` produces for `PC2`. -/
def mC2 : St := getModule (genModule idOrd idOrd PC2)

/-- A program whose only callee `f` appears with arities 1 and 2. -/
def PC3 : Block :=
  .mk (.cons (.TermSemicolon (.Call ⟨"f", 1⟩ (.cons (.Literal 1) .nil))) .nil)
    (.Call ⟨"f", 2⟩ (.cons (.Literal 1) (.cons (.Literal 2) .nil)))

/-- `let a = 1; let b = 2; while a + b { 0 }; 0` — a loop condition reading
two bound variables, so the loop header gets two merge points whose order
follows the environment map's iteration order. -/
def PC4 : Block :=
  .mk (.cons (.Let "a" (.Literal 1))
       (.cons (.Let "b" (.Literal 2))
        (.cons (.TermSemicolon (.While (.Infix (.Var "a") .Add (.Var "b"))
          (.mk .nil (.Literal 0)))) .nil)))
    (.Literal 0)

/-- A program with two independent failures: the body reads the undeclared
variable `z`, and the trailing expression calls a function whose name
carries an interior NUL byte (so declaring it fails). -/
def PC5 : Block :=
  .mk (.cons (.TermSemicolon (.Var "z")) .nil) (.Call ⟨"f\x00g", 0⟩ .nil)

/-- `let mut y = 2; let x = y; x` — an immutable `Let` whose right-hand side
lowers to a load, not a compile-time constant. -/
def PC7 : Block :=
  .mk (.cons (.LetMut "y" (.Literal 2))
       (.cons (.Let "x" (.Var "y")) .nil))
    (.Var "x")

/-- `let mut x = n; let mut r = { let mut x = n+1; x = n+2; x }; x + r` —
an inner scope shadows `x` with a fresh mutable binding, mutates the shadow,
and its result escapes only as the scope's value. -/
def PC9 (n : Int) : Block :=
  .mk (.cons (.LetMut "x" (.Literal n))
       (.cons (.LetMut "r" (.Scope (.mk
         (.cons (.LetMut "x" (.Literal (n + 1)))
          (.cons (.Mutate "x" (.Literal (n + 2))) .nil))
         (.Var "x")))) .nil))
    (.Infix (.Var "x") .Add (.Var "r"))

/-! ### Relations and predicates used by the proofs -/

/-- Every phi instruction in the state has exactly two incoming edges: the
first sourced from block `entry`, the second carrying the phi's own value
reference and sourced from the block holding the phi. -/
def PhiShaped (entry : Nat) (st : St) : Prop :=
  ∀ bb, bb ∈ st.blocks → ∀ p, p ∈ bb.instrs → ∀ isPtr inc nm,
    p.2 = Instr.phi isPtr inc nm →
    ∃ v, inc = [(v, entry), (Val.ref p.1, bb.bid)]

mutual
/-- No `While` node occurs in the expression. -/
def noWhileT : Term → Bool
  | .Literal _ => true
  | .Var _ => true
  | .Infix l _ r => noWhileT l && noWhileT r
  | .Call _ args => noWhileTs args
  | .Scope b => noWhileB b
  | .While _ _ => false

/-- No `While` node occurs in the argument list. -/
def noWhileTs : TermList → Bool
  | .nil => true
  | .cons t ts => noWhileT t && noWhileTs ts

/-- No `While` node occurs in the statement. -/
def noWhileS : Statement → Bool
  | .TermSemicolon t => noWhileT t
  | .Let _ r => noWhileT r
  | .LetMut _ r => noWhileT r
  | .Mutate _ r => noWhileT r

/-- No `While` node occurs in the statement list. -/
def noWhileSs : StmtList → Bool
  | .nil => true
  | .cons s ss => noWhileS s && noWhileSs ss

/-- No `While` node occurs in the block. -/
def noWhileB : Block → Bool
  | .mk ss e => noWhileSs ss && noWhileT e
end

/-- Register-file extension: everything the smaller file knows is preserved
(freshly emitted instructions only add new ids). -/
def ExtR (r r2 : Regs) : Prop :=
  ∀ i x, lookupR r i = some x → lookupR r2 i = some x

/-- All ids bound in the register file are below the fresh-id counter. -/
def IdsBelow (regs : Regs) (n : Nat) : Prop :=
  ∀ i x, lookupR regs i = some x → i < n

/-- Simulation relation between a compile-time environment of the
Let-and-arithmetic fragment and an interpreter environment: every binding is
`Unboxed` and its value reference evaluates (under the registers produced by
executing the code emitted so far) to the interpreter's integer. -/
def EnvRel (envC : Env) (envI : IEnv) (regs : Regs) : Prop :=
  ∀ n,
    (∀ v k, lookupE envC n = some (v, .Unboxed k) →
      ∃ z, lookupI envI n = some z ∧ evalOp regs v = some (.int z)) ∧
    (lookupE envC n = none → lookupI envI n = none) ∧
    (∀ v, lookupE envC n ≠ some (v, .Boxed))

/-- Well-formedness of the builder state while lowering the fragment: the
builder sits in the single `entry` block, executing the instructions emitted
so far succeeds with register file `regs` and empty memory, and all bound
ids are below the fresh-id counter. -/
def WFent (st : St) (regs : Regs) : Prop :=
  st.cur = 0 ∧ ∃ l, st.blocks = [⟨0, "entry", l⟩] ∧
    runList l [] [] = some (regs, []) ∧ IdsBelow regs st.counter

/-! ## Claim C3 -/

/-- C3: the claim says `find_funcs` fails with an arity-conflict error when
one callee name is observed with two different argument counts.  On the
program `PC3` (calling `f` with one and with two arguments) the code instead
returns both signatures — the conflict check tests membership in a set that
is created empty right before the test, so it can never fire — and
`gen_module` then succeeds, declaring `f` twice.  This theorem evaluates the
code at that failing input. -/
theorem claim3_no_arity_conflict_detected :
    findFuncsB PC3 = .ok [⟨"f", 1⟩, ⟨"f", 2⟩] ∧
    genModule idOrd idOrd PC3 = .ok (getModule (genModule idOrd idOrd PC3)) ∧
    (getModule (genModule idOrd idOrd PC3)).decls
      = [("main", 0), ("f", 1), ("f", 2)] := by
  refine ⟨rfl, rfl, rfl⟩

/-! ## Claim C5 -/

/-- C5 (counterexample): on `PC5` the callee-declaration step fails (NUL in
the callee name) and, independently, lowering the body fails on the
undeclared variable `z`; the claim says both failures are collected into one
returned list, but `gen_module` returns only the declaration error — the
body's error message does not appear. -/
theorem claim5_counterexample :
    genModule idOrd idOrd PC5 = .error ["nul byte found in provided data"] ∧
    (buildBlock idOrd 0 PC5 [] stEntry).2
      = .error ["Variable z is not declared yet."] ∧
    "Variable z is not declared yet." ∉ ["nul byte found in provided data"] := by
  refine ⟨rfl, rfl, by decide⟩

/-- C5 (amended): `gen_module` short-circuits across its steps instead of
aggregating them: if callee declaration fails, its single error is returned
alone and the entry function is never built; only when declaration succeeds
does `gen_module` proceed to (and return exactly the result of) the
entry-function build. -/
theorem claim5_short_circuit :
    ∀ (σ : Env → Env) (σf : List FunctionCall → List FunctionCall) (b : Block),
      (∀ st1 e, declFuncs σf b st0 = (st1, .error e) →
        genModule σ σf b = .error [e]) ∧
      (∀ st1, declFuncs σf b st0 = (st1, .ok ()) →
        genModule σ σf b = initModule σ b st1) := by
  intro σ σf b
  constructor
  · intro st1 e h
    simp [genModule, h]
  · intro st1 h
    simp [genModule, h]

/-- Witness for `claim5_short_circuit` at the concrete program `PC5`, whose
declaration step fails with the NUL-byte error. -/
theorem claim5_witness :
    genModule idOrd idOrd PC5 = .error ["nul byte found in provided data"] :=
  (claim5_short_circuit idOrd idOrd PC5).1 st0
    "nul byte found in provided data" rfl

/-! ## Claim C6 -/

/-- C6 (counterexample): for a `Call` with two failing arguments the claim
says the returned error is exactly the first failure and later arguments are
not lowered; the code lowers every argument and returns the concatenation of
all the failures, with the later argument's message first. -/
theorem claim6_counterexample :
    (buildTerm idOrd 0 (.Call ⟨"f", 2⟩ (.cons (.Var "a") (.cons (.Var "b") .nil)))
        [] stEntry).2
      = .error ["Variable b is not declared yet.",
                "Variable a is not declared yet."] ∧
    ["Variable b is not declared yet.", "Variable a is not declared yet."]
      ≠ ["Variable a is not declared yet."] := by
  refine ⟨rfl, by decide⟩

/-! ## Claim C7 -/

/-- C7 (counterexample): on `PC7` the `Let` right-hand side lowers to a load
(`Val.ref 2`), not a statically known constant, so the claim says lowering
fails with a non-constant-Let error; instead the code binds `x` as
`Unboxed` with a junk payload (the modelled result of
`LLVMConstIntGetSExtValue` on a non-constant) and compilation succeeds, the
compiled program returning 2. -/
theorem claim7_counterexample :
    envResLookup
        (buildStmts idOrd 0
          (.cons (.LetMut "y" (.Literal 2))
            (.cons (.Let "x" (.Var "y")) .nil)) [] stEntry) "x"
      = some (Val.ref 2, Levity.Unboxed 0) ∧
    execGen idOrd idOrd PC7 = some 2 := by
  refine ⟨rfl, rfl⟩

/-- C7 (amended): lowering `Let(name, rhs)` never fails once `rhs` lowers
successfully — there is no constant-ness check — and `name` is bound as
`Unboxed` carrying `LLVMConstIntGetSExtValue` of the lowered value, which is
the claimed constant exactly when the lowered `rhs` is a constant. -/
theorem claim7_let_never_fails :
    ∀ (σ : Env → Env) (entry : Nat) (lhs : String) (rhs : Term)
      (rest : StmtList) (env : Env) (st st1 : St) (v : Val),
      buildTerm σ entry rhs env st = (st1, .ok v) →
      buildStmts σ entry (.cons (.Let lhs rhs) rest) env st
        = buildStmts σ entry rest
            (insertE env lhs (v, .Unboxed (constIntGetSExtValue v))) st1
      ∧ (∀ c, v = .constInt c → constIntGetSExtValue v = c) := by
  intro σ entry lhs rhs rest env st st1 v h
  constructor
  · simp [buildStmts, h]
  · intro c hc
    subst hc
    rfl

/-- Witness for `claim7_let_never_fails`: `let x = 7` binds `x` as
`Unboxed 7`. -/
theorem claim7_witness :
    buildStmts idOrd 0 (.cons (.Let "x" (.Literal 7)) .nil) [] stEntry
      = buildStmts idOrd 0 .nil
          (insertE [] "x"
            (Val.constInt 7, .Unboxed (constIntGetSExtValue (Val.constInt 7))))
          stEntry
    ∧ (∀ c, Val.constInt 7 = Val.constInt c →
        constIntGetSExtValue (Val.constInt 7) = c) :=
  claim7_let_never_fails idOrd 0 "x" (.Literal 7) .nil [] stEntry stEntry
    (Val.constInt 7) (by rfl)

/-! ## Claim C8 -/

/-- C8 (counterexample): the claim says `Mutate` on a name that is unbound
fails with the undeclared-variable error for that name; but the right-hand
side is lowered first, so when it also fails its error is the one returned —
here `Mutate("x", Var "y")` with both names unbound reports `y`, not `x`. -/
theorem claim8_counterexample :
    (buildStmts idOrd 0 (.cons (.Mutate "x" (.Var "y")) .nil) [] stEntry).2
      = .error ["Variable y is not declared yet."] ∧
    "Variable y is not declared yet." ≠ "Variable x is not declared yet." := by
  refine ⟨rfl, by decide⟩

/-- C8 (amended): for `Mutate(name, rhs)`, *provided the lowering of `rhs`
succeeds*: an unbound `name` fails with the undeclared-variable error, an
`Unboxed` binding fails with the immutable-assignment error, and a `Boxed`
binding stores the lowered value into the originally bound cell, the
environment (hence the cell identity seen by all aliases) unchanged. -/
theorem claim8_mutate_cases :
    ∀ (σ : Env → Env) (entry : Nat) (lhs : String) (rhs : Term)
      (rest : StmtList) (env : Env) (st st1 : St) (v : Val),
      buildTerm σ entry rhs env st = (st1, .ok v) →
      (lookupE env lhs = none →
        buildStmts σ entry (.cons (.Mutate lhs rhs) rest) env st
          = (st1, .error ["Variable " ++ lhs ++ " is not declared yet."])) ∧
      (∀ w k, lookupE env lhs = some (w, .Unboxed k) →
        buildStmts σ entry (.cons (.Mutate lhs rhs) rest) env st
          = (st1, .error ["Variable " ++ lhs ++
                          " is immutable, so it cannot be mutated."])) ∧
      (∀ w, lookupE env lhs = some (w, .Boxed) →
        buildStmts σ entry (.cons (.Mutate lhs rhs) rest) env st
          = buildStmts σ entry rest env (emitD st1 (.store v w))) := by
  intro σ entry lhs rhs rest env st st1 v h
  refine ⟨?_, ?_, ?_⟩
  · intro hl
    simp [buildStmts, h, hl]
  · intro w k hl
    simp [buildStmts, h, hl]
  · intro w hl
    simp [buildStmts, h, hl]

/-- Witness for `claim8_mutate_cases`: mutating the `Boxed` binding `x`
stores into its original cell (`Val.ref 0`) and continues with the same
environment. -/
theorem claim8_witness :
    buildStmts idOrd 0 (.cons (.Mutate "x" (.Literal 1)) .nil)
        [("x", (Val.ref 0, Levity.Boxed))] stEntry
      = buildStmts idOrd 0 .nil [("x", (Val.ref 0, Levity.Boxed))]
          (emitD stEntry (.store (Val.constInt 1) (Val.ref 0))) :=
  (claim8_mutate_cases idOrd 0 "x" (.Literal 1) .nil
      [("x", (Val.ref 0, Levity.Boxed))] stEntry stEntry
      (Val.constInt 1) (by rfl)).2.2 (Val.ref 0) (by rfl)

/-! ## Claim C10 -/

/-- C10: in `Mutate(name, rhs)` the right-hand side is lowered before the
lookup result for `name` is inspected: a failing `rhs` is the error returned
no matter what the lookup said (first conjunct — it holds for every
environment, in particular when `name` is unbound), the undeclared-variable
error surfaces only when `rhs` lowering succeeds (second conjunct), and the
instructions of a successful `rhs` stay in the module even when the
assignment itself is rejected (third conjunct: the returned state is the
post-`rhs` state; fourth conjunct: concretely, `x = 1 + 2` on an unbound `x`
leaves the `add` in the entry block while failing with the
undeclared-variable error for `x`). -/
theorem claim10_mutate_rhs_first :
    (∀ (σ : Env → Env) (entry : Nat) (lhs : String) (rhs : Term)
       (rest : StmtList) (env : Env) (st st1 : St) (e : List String),
       buildTerm σ entry rhs env st = (st1, .error e) →
       buildStmts σ entry (.cons (.Mutate lhs rhs) rest) env st
         = (st1, .error e)) ∧
    (∀ (σ : Env → Env) (entry : Nat) (lhs : String) (rhs : Term)
       (rest : StmtList) (env : Env) (st st1 : St) (v : Val),
       buildTerm σ entry rhs env st = (st1, .ok v) →
       lookupE env lhs = none →
       buildStmts σ entry (.cons (.Mutate lhs rhs) rest) env st
         = (st1, .error ["Variable " ++ lhs ++ " is not declared yet."])) ∧
    ((buildStmts idOrd 0
        (.cons (.Mutate "x" (.Infix (.Literal 1) .Add (.Literal 2))) .nil)
        [] stEntry).1.blocks
       = [⟨0, "entry", [(0, .add (.constInt 1) (.constInt 2) "add")]⟩] ∧
     (buildStmts idOrd 0
        (.cons (.Mutate "x" (.Infix (.Literal 1) .Add (.Literal 2))) .nil)
        [] stEntry).2
       = .error ["Variable x is not declared yet."]) := by
  refine ⟨?_, ?_, rfl, rfl⟩
  · intro σ entry lhs rhs rest env st st1 e h
    simp [buildStmts, h]
  · intro σ entry lhs rhs rest env st st1 v h hl
    simp [buildStmts, h, hl]

/-- Witness for `claim10_mutate_rhs_first`: with both `x` and the right-hand
side variable `z` unbound, the returned error is the one for `z`. -/
theorem claim10_witness :
    buildStmts idOrd 0 (.cons (.Mutate "x" (.Var "z")) .nil) [] stEntry
      = (stEntry, .error ["Variable z is not declared yet."]) :=
  claim10_mutate_rhs_first.1 idOrd 0 "x" (.Var "z") .nil [] stEntry stEntry
    ["Variable z is not declared yet."] (by rfl)

/-- Folding `collectStep` from an error accumulator only accumulates: the
element errors are prepended, so the result lists later elements' errors
first. -/
theorem collectStep_error (rs : List (Except (List String) Val)) :
    ∀ es, rs.foldl collectStep (.error es)
      = .error ((rs.filterMap errVal).reverse.flatten ++ es) := by
  induction rs with
  | nil => intro es; simp [errVal]
  | cons x rest ih =>
    intro es
    cases x with
    | ok v => simpa [collectStep, errVal] using ih es
    | error le =>
      simp [collectStep, errVal, ih (le ++ es), List.flatten_append]

/-- Characterisation of the argument fold: if every element succeeded the
values are collected in order; otherwise the result is the concatenation of
all the failing elements' error lists, later elements first. -/
theorem collectStep_ok (rs : List (Except (List String) Val)) :
    ∀ acc, rs.foldl collectStep (.ok acc)
      = if rs.all isOkB then .ok (acc ++ rs.filterMap okVal)
        else .error ((rs.filterMap errVal).reverse.flatten) := by
  induction rs with
  | nil => intro acc; simp [isOkB, okVal]
  | cons x rest ih =>
    intro acc
    cases x with
    | ok v =>
      simp [collectStep, isOkB, okVal, errVal, ih (acc ++ [v]),
            List.append_assoc]
    | error le =>
      simp [collectStep, isOkB, okVal, errVal, collectStep_error,
            List.flatten_append]

/-- C6 (amended): inside `Infix` lowering the first failure short-circuits —
a failing left operand aborts with exactly its error and the right operand
is not lowered (the state is the one the left operand produced).  For
`Call`, however, *every* argument is lowered (the returned state is the one
after building all of them) and the returned error is the concatenation of
all failing arguments' error lists, with later arguments' errors first. -/
theorem claim6_error_collection :
    (∀ (σ : Env → Env) (entry : Nat) (l : Term) (op : Operator) (r : Term)
       (env : Env) (st st1 : St) (e : List String),
       buildTerm σ entry l env st = (st1, .error e) →
       buildTerm σ entry (.Infix l op r) env st = (st1, .error e)) ∧
    (∀ rs : List (Except (List String) Val),
       collectArgs rs
         = if rs.all isOkB then .ok (rs.filterMap okVal)
           else .error ((rs.filterMap errVal).reverse.flatten)) ∧
    (∀ (σ : Env → Env) (entry : Nat) (fc : FunctionCall) (args : TermList)
       (env : Env) (st st1 : St) (rs : List (Except (List String) Val))
       (es : List String),
       toRaw fc.name = .ok fc.name →
       buildArgs σ entry args env st = (st1, rs) →
       collectArgs rs = .error es →
       buildTerm σ entry (.Call fc args) env st = (st1, .error es)) := by
  refine ⟨?_, ?_, ?_⟩
  · intro σ entry l op r env st st1 e h
    simp [buildTerm, h]
  · intro rs
    simpa using collectStep_ok rs []
  · intro σ entry fc args env st st1 rs es hraw hargs hcollect
    simp [buildTerm, hraw, hargs, hcollect]

/-- Witness for `claim6_error_collection`: an `Infix` whose left operand is
the undeclared `a` fails with exactly that error, the right operand never
lowered. -/
theorem claim6_witness :
    buildTerm idOrd 0 (.Infix (.Var "a") .Add (.Literal 1)) [] stEntry
      = (stEntry, .error ["Variable a is not declared yet."]) :=
  claim6_error_collection.1 idOrd 0 (.Var "a") .Add (.Literal 1) [] stEntry
    stEntry ["Variable a is not declared yet."] (by rfl)

/-! ## Claim C9 -/

/-- C9: a `Scope(block)` expression lowers the block against a fork of the
current environment and only its result value escapes: structurally,
`Term::build` on a `Scope` is exactly `Block::build` on the block against
(a clone of) the incoming environment, and the caller's environment is
untouched (first conjunct).  Semantically (second conjunct), in the program
`PC9 n` — `let mut x = n; let mut r = { let mut x = n+1; x = n+2; x }; x+r` —
the inner `let mut x` shadows the outer binding with a fresh cell, the inner
mutation hits only that fresh cell, the shadow binding is gone after the
scope exits, and only the scope's result value escapes into `r`: the
compiled program returns `n + (n+2)` (as i32), the outer `x` still holding
`n`. -/
theorem claim9_scope_isolation :
    (∀ (σ : Env → Env) (entry : Nat) (blk : Block) (env : Env) (st : St),
       buildTerm σ entry (.Scope blk) env st = buildBlock σ entry blk env st) ∧
    (∀ n : Int,
       execGen idOrd idOrd (PC9 n) = some (add32 (wrap n) (wrap (n + 2)))) := by
  refine ⟨fun _ _ _ _ _ => rfl, fun n => rfl⟩

/-! ## Claim C2 -/

/-- C2 (counterexample): at `PC2` (`let x = 3; while x { let x = 5; 0 }; 0`)
the claim says the merge point for `x` has a latch edge that is later
patched with `x`'s value from the environment produced by lowering the loop
body.  The module actually built contains exactly one phi, with incoming
edges `[(3, entry), (the phi itself, loop block)]` (first conjunct); the
environment produced by lowering the body (started from the merged
environment the While arm builds, in which `x` is the phi `ref 2`) binds `x`
to the constant 5 (second conjunct); and the latch edge's value, the phi's
own reference, is not that post-body value (third conjunct) — no patching
ever happens. -/
theorem claim2_counterexample :
    phisOf mC2 = [(2, 1, false, [(Val.constInt 3, 0), (Val.ref 2, 1)], "x")] ∧
    envResLookup
        (buildStmts idOrd 0 (.cons (.Let "x" (.Literal 5)) .nil)
          [("x", (Val.ref 2, Levity.Unboxed 3))] stEntry) "x"
      = some (Val.constInt 5, Levity.Unboxed 5) ∧
    Val.ref 2 ≠ Val.constInt 5 := by
  refine ⟨rfl, rfl, by decide⟩

/-- Splitting membership in `addInstr`: a block of the updated list is
either an untouched old block or the old block `c` with the instruction
appended. -/
theorem mem_addInstr :
    ∀ {blocks : List BB} {c : Nat} {q : Nat × Instr} {bb : BB},
      bb ∈ addInstr blocks c q →
      bb ∈ blocks ∨ ∃ b0, b0 ∈ blocks ∧ b0.bid = c ∧
        bb = { b0 with instrs := b0.instrs ++ [q] } := by
  intro blocks c q
  induction blocks with
  | nil => intro bb h; simp [addInstr] at h
  | cons b rest ih =>
    intro bb h
    by_cases hc : b.bid = c
    · simp only [addInstr, if_pos hc] at h
      rcases List.mem_cons.mp h with he | hr
      · exact Or.inr ⟨b, List.mem_cons_self b rest, hc, he⟩
      · exact Or.inl (List.mem_cons.mpr (Or.inr hr))
    · simp only [addInstr, if_neg hc] at h
      rcases List.mem_cons.mp h with he | hr
      · exact Or.inl (List.mem_cons.mpr (Or.inl he))
      · rcases ih hr with h1 | ⟨b0, hb0, hbid, he2⟩
        · exact Or.inl (List.mem_cons.mpr (Or.inr h1))
        · exact Or.inr ⟨b0, List.mem_cons.mpr (Or.inr hb0), hbid, he2⟩

/-- Emitting preserves phi shape, provided the instruction, if a phi, has
the canonical two edges (entry value, self from the current block). -/
theorem phiShaped_emit {entry : Nat} {st : St} {i : Instr}
    (h : PhiShaped entry st)
    (hi : ∀ isPtr inc nm, i = Instr.phi isPtr inc nm →
      ∃ v, inc = [(v, entry), (Val.ref st.counter, st.cur)]) :
    PhiShaped entry (emit st i).1 := by
  intro bb hbb p hp isPtr inc nm hphi
  have hbb2 : bb ∈ addInstr st.blocks st.cur (st.counter, i) := hbb
  rcases mem_addInstr hbb2 with hold | ⟨b0, hb0, hbid, rfl⟩
  · exact h bb hold p hp isPtr inc nm hphi
  · rcases List.mem_append.mp hp with hpold | hpnew
    · exact h b0 hb0 p hpold isPtr inc nm hphi
    · have hpe : p = (st.counter, i) := by simpa using hpnew
      subst hpe
      rcases hi isPtr inc nm hphi with ⟨v, hv⟩
      exact ⟨v, by simp [hv, hbid]⟩

/-- Emitting a non-phi instruction preserves phi shape. -/
theorem phiShaped_emit_notphi {entry : Nat} {st : St} {i : Instr}
    (h : PhiShaped entry st)
    (hnp : ∀ isPtr inc nm, i ≠ Instr.phi isPtr inc nm) :
    PhiShaped entry (emit st i).1 :=
  phiShaped_emit h (fun isPtr inc nm hh => absurd hh (hnp isPtr inc nm))

/-- Appending a fresh (empty) basic block preserves phi shape. -/
theorem phiShaped_appendBlock {entry : Nat} {st : St} (nm : String)
    (h : PhiShaped entry st) : PhiShaped entry (appendBlock st nm).1 := by
  intro bb hbb p hp isPtr inc nm2 hphi
  have hbb2 : bb ∈ st.blocks ++ [⟨st.bcounter, nm, []⟩] := hbb
  rcases List.mem_append.mp hbb2 with hold | hnew
  · exact h bb hold p hp isPtr inc nm2 hphi
  · have : bb = ⟨st.bcounter, nm, []⟩ := by simpa using hnew
    subst this
    simp at hp

/-- Moving the builder preserves phi shape. -/
theorem phiShaped_setCur {entry : Nat} {st : St} (b : Nat)
    (h : PhiShaped entry st) : PhiShaped entry (setCur st b) := h

/-- `emitD` version of `phiShaped_emit_notphi`. -/
theorem phiShaped_emitD_notphi {entry : Nat} {st : St} {i : Instr}
    (h : PhiShaped entry st)
    (hnp : ∀ isPtr inc nm, i ≠ Instr.phi isPtr inc nm) :
    PhiShaped entry (emitD st i) :=
  phiShaped_emit_notphi h hnp

/-- The While arm's scaffolding up to the loop block (compare with zero,
create the loop and afterloop blocks, branch, position at the loop block)
preserves phi shape. -/
theorem phiShaped_whileSteps {entry : Nat} {st1 : St} (bc : Val)
    (h : PhiShaped entry st1) :
    PhiShaped entry
      (setCur
        (emitD (appendBlock (appendBlock
            (emit st1 (Instr.icmpeq bc (Val.constInt 0) "iszero")).1
            "loop").1 "afterloop").1
          (Instr.condbr
            (emit st1 (Instr.icmpeq bc (Val.constInt 0) "iszero")).2
            (appendBlock (appendBlock
              (emit st1 (Instr.icmpeq bc (Val.constInt 0) "iszero")).1
              "loop").1 "afterloop").2
            (appendBlock
              (emit st1 (Instr.icmpeq bc (Val.constInt 0) "iszero")).1
              "loop").2))
        (appendBlock
          (emit st1 (Instr.icmpeq bc (Val.constInt 0) "iszero")).1
          "loop").2) := by
  refine phiShaped_setCur _ (phiShaped_emitD_notphi ?_ ?_)
  · exact phiShaped_appendBlock _ (phiShaped_appendBlock _
      (phiShaped_emit_notphi h (fun _ _ _ hh => by cases hh)))
  · intro _ _ _ hh; cases hh

/-- The phi-building loop of the While arm only creates phis of the
canonical shape. -/
theorem phiShaped_buildPhis {entry : Nat} :
    ∀ (condVars : List String) (l : List (String × (Val × Levity)))
      (newEnv : Env) (st : St), PhiShaped entry st →
      PhiShaped entry (buildPhis entry condVars l newEnv st).1 := by
  intro condVars l
  induction l with
  | nil => intro newEnv st h; simpa [buildPhis] using h
  | cons kv rest ih =>
    intro newEnv st h
    obtain ⟨key, v, lev⟩ := kv
    by_cases hc : condVars.contains key = true
    · cases lev with
      | Boxed =>
        simp only [buildPhis, if_pos hc]
        exact ih _ _ (phiShaped_emit h
          (fun isPtr inc nm hh => by
            injection hh with h1 h2 h3
            exact ⟨v, h2.symm⟩))
      | Unboxed k =>
        cases htr : toRaw key with
        | error e =>
          simp only [buildPhis, if_pos hc, htr]
          exact h
        | ok nm2 =>
          simp only [buildPhis, if_pos hc, htr]
          exact ih _ _ (phiShaped_emit h
            (fun isPtr inc nm hh => by
              injection hh with h1 h2 h3
              exact ⟨_, h2.symm⟩))
    · simp only [buildPhis, if_neg hc]
      exact ih newEnv st h

mutual
/-- Lowering an expression preserves the canonical phi shape of the module
under construction. -/
theorem phiT (σ : Env → Env) (entry : Nat) :
    ∀ (t : Term) (env : Env) (st : St), PhiShaped entry st →
      PhiShaped entry (buildTerm σ entry t env st).1
  | .Literal i, env, st, h => by simpa [buildTerm] using h
  | .Var n, env, st, h => by
    cases hl : lookupE env n with
    | none => simpa [buildTerm, hl] using h
    | some p =>
      obtain ⟨v, lev⟩ := p
      cases lev with
      | Boxed =>
        simp only [buildTerm, hl]
        exact phiShaped_emit_notphi h (fun _ _ _ hh => by cases hh)
      | Unboxed k => simpa [buildTerm, hl] using h
  | .Infix l op r, env, st, h => by
    have ihl := phiT σ entry l env st h
    rcases hl : buildTerm σ entry l env st with ⟨st1, res1⟩
    rw [hl] at ihl
    cases res1 with
    | error e => simpa [buildTerm, hl] using ihl
    | ok lv =>
      have ihr := phiT σ entry r env st1 ihl
      rcases hr : buildTerm σ entry r env st1 with ⟨st2, res2⟩
      rw [hr] at ihr
      cases res2 with
      | error e => simpa [buildTerm, hl, hr] using ihr
      | ok rv =>
        cases op <;> simp only [buildTerm, hl, hr] <;>
          exact phiShaped_emit_notphi ihr (fun _ _ _ hh => by cases hh)
  | .Call fc args, env, st, h => by
    cases htr : toRaw fc.name with
    | error e => simpa [buildTerm, htr] using h
    | ok fname =>
      have iha := phiArgs σ entry args env st h
      rcases ha : buildArgs σ entry args env st with ⟨st1, rs⟩
      rw [ha] at iha
      cases hco : collectArgs rs with
      | error es => simpa [buildTerm, htr, ha, hco] using iha
      | ok vals =>
        cases htr2 : toRaw ("call" ++ fc.name) with
        | error e2 => simpa [buildTerm, htr, ha, hco, htr2] using iha
        | ok cname =>
          simp only [buildTerm, htr, ha, hco, htr2]
          exact phiShaped_emit_notphi iha (fun _ _ _ hh => by cases hh)
  | .Scope blk, env, st, h => phiB σ entry blk env st h
  | .While cond blk, env, st, h => by
    have ihc := phiT σ entry cond env st h
    rcases hc : buildTerm σ entry cond env st with ⟨st1, res1⟩
    rw [hc] at ihc
    cases res1 with
    | error e => simpa [buildTerm, hc] using ihc
    | ok bc =>
      simp only [buildTerm, hc]
      have h6 := phiShaped_whileSteps bc ihc
      split
      · rename_i st7 e hps
        have h7 := phiShaped_buildPhis (rhsVarsT cond) (σ env) env _ h6
        rw [hps] at h7
        exact h7
      · rename_i st7 newEnv hps
        have h7 := phiShaped_buildPhis (rhsVarsT cond) (σ env) env _ h6
        rw [hps] at h7
        split
        · rename_i st8 e hbb
          have h8 := phiB σ entry blk newEnv st7 h7
          rw [hbb] at h8
          exact h8
        · rename_i st8 bv hbb
          have h8 := phiB σ entry blk newEnv st7 h7
          rw [hbb] at h8
          split
          · rename_i st9 e hc2
            have h9 := phiT σ entry cond newEnv st8 h8
            rw [hc2] at h9
            exact h9
          · rename_i st9 bc2 hc2
            have h9 := phiT σ entry cond newEnv st8 h8
            rw [hc2] at h9
            exact phiShaped_setCur _
              (phiShaped_emitD_notphi
                (phiShaped_emit_notphi h9 (fun _ _ _ hh => by cases hh))
                (fun _ _ _ hh => by cases hh))

/-- Lowering an argument list preserves the canonical phi shape. -/
theorem phiArgs (σ : Env → Env) (entry : Nat) :
    ∀ (ts : TermList) (env : Env) (st : St), PhiShaped entry st →
      PhiShaped entry (buildArgs σ entry ts env st).1
  | .nil, env, st, h => by simpa [buildArgs] using h
  | .cons t ts, env, st, h => by
    have iht := phiT σ entry t env st h
    rcases ht : buildTerm σ entry t env st with ⟨st1, r⟩
    rw [ht] at iht
    have ihts := phiArgs σ entry ts env st1 iht
    rcases hts : buildArgs σ entry ts env st1 with ⟨st2, rs⟩
    rw [hts] at ihts
    simpa [buildArgs, ht, hts] using ihts

/-- Lowering a statement list preserves the canonical phi shape. -/
theorem phiStmts (σ : Env → Env) (entry : Nat) :
    ∀ (ss : StmtList) (env : Env) (st : St), PhiShaped entry st →
      PhiShaped entry (buildStmts σ entry ss env st).1
  | .nil, env, st, h => by simpa [buildStmts] using h
  | .cons (.TermSemicolon t) rest, env, st, h => by
    have iht := phiT σ entry t env st h
    rcases ht : buildTerm σ entry t env st with ⟨st1, r⟩
    rw [ht] at iht
    cases r with
    | error e => simpa [buildStmts, ht] using iht
    | ok v =>
      simp only [buildStmts, ht]
      exact phiStmts σ entry rest env st1 iht
  | .cons (.Let lhs rhs) rest, env, st, h => by
    have iht := phiT σ entry rhs env st h
    rcases ht : buildTerm σ entry rhs env st with ⟨st1, r⟩
    rw [ht] at iht
    cases r with
    | error e => simpa [buildStmts, ht] using iht
    | ok v =>
      simp only [buildStmts, ht]
      exact phiStmts σ entry rest _ st1 iht
  | .cons (.LetMut lhs rhs) rest, env, st, h => by
    have h1 := @phiShaped_emit_notphi entry st (Instr.alloca lhs) h
      (fun _ _ _ hh => by cases hh)
    have iht := phiT σ entry rhs env _ h1
    rcases ht : buildTerm σ entry rhs env (emit st (Instr.alloca lhs)).1
      with ⟨st1, r⟩
    rw [ht] at iht
    cases r with
    | error e => simpa [buildStmts, ht] using iht
    | ok v =>
      simp only [buildStmts, ht]
      exact phiStmts σ entry rest _ _
        (phiShaped_emit_notphi iht (fun _ _ _ hh => by cases hh))
  | .cons (.Mutate lhs rhs) rest, env, st, h => by
    have iht := phiT σ entry rhs env st h
    rcases ht : buildTerm σ entry rhs env st with ⟨st1, r⟩
    rw [ht] at iht
    cases r with
    | error e => simpa [buildStmts, ht] using iht
    | ok v =>
      cases hl : lookupE env lhs with
      | none => simpa [buildStmts, ht, hl] using iht
      | some p =>
        obtain ⟨w, lev⟩ := p
        cases lev with
        | Boxed =>
          simp only [buildStmts, ht, hl]
          exact phiStmts σ entry rest _ _
            (phiShaped_emit_notphi iht
              (fun _ _ _ hh => by cases hh))
        | Unboxed k => simpa [buildStmts, ht, hl] using iht

/-- Lowering a block preserves the canonical phi shape. -/
theorem phiB (σ : Env → Env) (entry : Nat) :
    ∀ (b : Block) (env : Env) (st : St), PhiShaped entry st →
      PhiShaped entry (buildBlock σ entry b env st).1
  | .mk ss e, env, st, h => by
    have ihs := phiStmts σ entry ss env st h
    rcases hs : buildStmts σ entry ss env st with ⟨st1, r⟩
    rw [hs] at ihs
    cases r with
    | error err => simpa [buildBlock, hs] using ihs
    | ok env1 =>
      have ihe := phiT σ entry e env1 st1 ihs
      simpa [buildBlock, hs] using ihe
end

/-- `declLoop` only touches the declaration list. -/
theorem declLoop_blocks :
    ∀ (fs : List FunctionCall) (st : St),
      (declLoop fs st).1.blocks = st.blocks ∧
      (declLoop fs st).1.bcounter = st.bcounter := by
  intro fs
  induction fs with
  | nil => intro st; exact ⟨rfl, rfl⟩
  | cons f rest ih =>
    intro st
    cases htr : toRaw f.name with
    | error es => simp [declLoop, htr]
    | ok nm => simpa [declLoop, htr] using ih _

/-- A failing declaration step short-circuits `gen_module`. -/
theorem genModule_decl_error {σ : Env → Env}
    {σf : List FunctionCall → List FunctionCall} {b : Block} {st1 : St}
    {e : String} (h : declFuncs σf b st0 = (st1, .error e)) :
    genModule σ σf b = .error [e] := by
  simp [genModule, h]

/-- A successful declaration step hands its state to `init_module`. -/
theorem genModule_decl_ok {σ : Env → Env}
    {σf : List FunctionCall → List FunctionCall} {b : Block} {st1 : St}
    {u : Unit} (h : declFuncs σf b st0 = (st1, .ok u)) :
    genModule σ σf b = initModule σ b st1 := by
  simp [genModule, h]

/-- The state after a successful declaration step still has no basic blocks
and block counter 0. -/
theorem declFuncs_ok_blocks {σf : List FunctionCall → List FunctionCall}
    {b : Block} {st1 : St} {u : Unit}
    (h : declFuncs σf b st0 = (st1, .ok u)) :
    st1.blocks = [] ∧ st1.bcounter = 0 := by
  unfold declFuncs at h
  cases hf : findFuncsB b with
  | error e => rw [hf] at h; cases h
  | ok fs =>
    rw [hf] at h
    have h3 : declLoop (σf fs) st0 = (st1, Except.ok u) := h
    have h2 := declLoop_blocks (σf fs) st0
    rw [h3] at h2
    exact h2

/-- C2 (amended): for every name read by the condition and bound at loop
entry the While arm creates a merge point with exactly two incoming edges —
but they are: one sourced from the *function entry block* carrying a
pre-loop value, and one carrying *the merge point itself*, sourced from the
block that holds it.  The second (latch) edge is fixed at creation and never
patched afterwards — no post-body environment exists to patch it from.
Stated over whole modules: every phi in a module `gen_module` successfully
produces has incoming edges `[(v, entry block 0), (its own reference, its
own block)]`. -/
theorem claim2_phi_self_edge :
    ∀ (σ : Env → Env) (σf : List FunctionCall → List FunctionCall)
      (b : Block) (m : St),
      genModule σ σf b = .ok m →
      ∀ bb, bb ∈ m.blocks → ∀ p, p ∈ bb.instrs → ∀ isPtr inc nm,
        p.2 = Instr.phi isPtr inc nm →
        ∃ v, inc = [(v, 0), (Val.ref p.1, bb.bid)] := by
  intro σ σf b m h
  rcases hd : declFuncs σf b st0 with ⟨st1, rd⟩
  cases rd with
  | error e =>
    rw [genModule_decl_error hd] at h
    cases h
  | ok u =>
    rw [genModule_decl_ok hd] at h
    obtain ⟨hbl, hbc⟩ := declFuncs_ok_blocks hd
    unfold initModule at h
    simp only [appendBlock, setCur, hbl, hbc, List.nil_append] at h
    split at h
    · cases h
    · rename_i st3 v hbb
      injection h with h2
      subst h2
      have hstart : PhiShaped 0
          ({ st1 with
              bcounter := 0 + 1, cur := 0,
              blocks := [⟨0, "entry", []⟩] } : St) := by
        intro bb hbb2 p hp isPtr inc nm hphi
        have : bb = ⟨0, "entry", []⟩ := by simpa using hbb2
        subst this
        simp at hp
      have hb := phiB σ 0 b [] _ hstart
      rw [hbb] at hb
      exact phiShaped_emit_notphi hb (fun _ _ _ hh => by cases hh)

/-- Witness for `claim2_phi_self_edge` at the concrete program `PC2`: the
phi of its loop block has the canonical entry/self edges. -/
theorem claim2_witness :
    ∃ v, [(Val.constInt 3, 0), (Val.ref 2, 1)]
      = [(v, 0), (Val.ref (2, Instr.phi false
            [(Val.constInt 3, 0), (Val.ref 2, 1)] "x").1,
          (⟨1, "loop",
            [(2, Instr.phi false [(Val.constInt 3, 0), (Val.ref 2, 1)] "x"),
             (3, Instr.icmpeq (Val.ref 2) (Val.constInt 0) "iszero"),
             (4, Instr.condbr (Val.ref 3) 2 1)]⟩ : BB).bid)] :=
  claim2_phi_self_edge idOrd idOrd PC2 mC2 (by rfl)
    ⟨1, "loop",
      [(2, Instr.phi false [(Val.constInt 3, 0), (Val.ref 2, 1)] "x"),
       (3, Instr.icmpeq (Val.ref 2) (Val.constInt 0) "iszero"),
       (4, Instr.condbr (Val.ref 3) 2 1)]⟩
    (by decide)
    (2, Instr.phi false [(Val.constInt 3, 0), (Val.ref 2, 1)] "x")
    (by decide) false [(Val.constInt 3, 0), (Val.ref 2, 1)] "x" rfl

/-! ## Claim C4 -/

/-- The reversed iteration order is a permutation of the entries, i.e. an
order the `HashMap` iteration could genuinely produce. -/
theorem revOrd_perm {α : Type} : ∀ l : List α, List.Perm (revOrd l) l :=
  fun l => List.reverse_perm l

/-- C4 (counterexample): lowering the same AST (`PC4`, whose loop condition
reads the two bound variables `a` and `b`) twice against fresh empty
environments yields different modules when the environment map enumerates
its entries in different orders (`idOrd` versus `revOrd`, both genuine
permutations — see `revOrd_perm`): the loop header's phi nodes are emitted
in iteration order, so the two modules differ. -/
theorem claim4_counterexample :
    modOpt (genModule revOrd idOrd PC4) ≠ modOpt (genModule idOrd idOrd PC4) := by
  decide

/-- A permutation of a list with at most one element is that list. -/
theorem permFix {α : Type} {l l2 : List α} (h : List.Perm l2 l)
    (hlen : l.length ≤ 1) : l2 = l := by
  cases l with
  | nil => exact List.perm_nil.mp h
  | cons a rest =>
    cases rest with
    | nil => exact List.perm_singleton.mp h
    | cons c r2 => simp at hlen

mutual
/-- Expression lowering does not consult the environment-iteration oracle
when the expression contains no `While`. -/
theorem buildTerm_sigma (σe σe2 : Env → Env) :
    ∀ (t : Term), noWhileT t = true → ∀ (entry : Nat) (env : Env) (st : St),
      buildTerm σe entry t env st = buildTerm σe2 entry t env st
  | .Literal i, hn, entry, env, st => rfl
  | .Var n, hn, entry, env, st => rfl
  | .Infix l op r, hn, entry, env, st => by
    simp only [noWhileT, Bool.and_eq_true] at hn
    simp only [buildTerm, buildTerm_sigma σe σe2 l hn.1 entry env st]
    cases hres : buildTerm σe2 entry l env st with
    | mk st1 res =>
      cases res with
      | error e => rfl
      | ok lv => simp only [buildTerm_sigma σe σe2 r hn.2 entry env st1]
  | .Call fc args, hn, entry, env, st => by
    simp only [noWhileT] at hn
    simp only [buildTerm, buildArgs_sigma σe σe2 args hn entry env st]
  | .Scope blk, hn, entry, env, st => by
    simp only [noWhileT] at hn
    simp only [buildTerm]
    exact buildBlock_sigma σe σe2 blk hn entry env st
  | .While cond blk, hn, entry, env, st => by
    simp [noWhileT] at hn

/-- Argument-list lowering does not consult the iteration oracle when no
`While` occurs. -/
theorem buildArgs_sigma (σe σe2 : Env → Env) :
    ∀ (ts : TermList), noWhileTs ts = true → ∀ (entry : Nat) (env : Env) (st : St),
      buildArgs σe entry ts env st = buildArgs σe2 entry ts env st
  | .nil, hn, entry, env, st => rfl
  | .cons t ts, hn, entry, env, st => by
    simp only [noWhileTs, Bool.and_eq_true] at hn
    simp only [buildArgs, buildTerm_sigma σe σe2 t hn.1 entry env st,
               buildArgs_sigma σe σe2 ts hn.2 entry env]

/-- Statement lowering does not consult the iteration oracle when no `While`
occurs. -/
theorem buildStmts_sigma (σe σe2 : Env → Env) :
    ∀ (ss : StmtList), noWhileSs ss = true → ∀ (entry : Nat) (env : Env) (st : St),
      buildStmts σe entry ss env st = buildStmts σe2 entry ss env st
  | .nil, hn, entry, env, st => rfl
  | .cons (.TermSemicolon t) rest, hn, entry, env, st => by
    simp only [noWhileSs, noWhileS, Bool.and_eq_true] at hn
    simp only [buildStmts, buildTerm_sigma σe σe2 t hn.1 entry env st,
               buildStmts_sigma σe σe2 rest hn.2 entry]
  | .cons (.Let lhs rhs) rest, hn, entry, env, st => by
    simp only [noWhileSs, noWhileS, Bool.and_eq_true] at hn
    simp only [buildStmts, buildTerm_sigma σe σe2 rhs hn.1 entry env st,
               buildStmts_sigma σe σe2 rest hn.2 entry]
  | .cons (.LetMut lhs rhs) rest, hn, entry, env, st => by
    simp only [noWhileSs, noWhileS, Bool.and_eq_true] at hn
    simp only [buildStmts, buildTerm_sigma σe σe2 rhs hn.1 entry env,
               buildStmts_sigma σe σe2 rest hn.2 entry]
  | .cons (.Mutate lhs rhs) rest, hn, entry, env, st => by
    simp only [noWhileSs, noWhileS, Bool.and_eq_true] at hn
    simp only [buildStmts, buildTerm_sigma σe σe2 rhs hn.1 entry env st,
               buildStmts_sigma σe σe2 rest hn.2 entry]

/-- Block lowering does not consult the iteration oracle when no `While`
occurs. -/
theorem buildBlock_sigma (σe σe2 : Env → Env) :
    ∀ (b : Block), noWhileB b = true → ∀ (entry : Nat) (env : Env) (st : St),
      buildBlock σe entry b env st = buildBlock σe2 entry b env st
  | .mk ss e, hn, entry, env, st => by
    simp only [noWhileB, Bool.and_eq_true] at hn
    simp only [buildBlock, buildStmts_sigma σe σe2 ss hn.1 entry env st,
               buildTerm_sigma σe σe2 e hn.2 entry]
end

/-- C4 (amended): lowering the same AST twice from fresh environments is
deterministic — structurally identical modules — provided the AST contains
no `While` loop (so the environment hash map is never enumerated) and calls
at most one distinct `(name, arity)` signature (so the order in which the
discovered callee set is enumerated for declaration is forced); any
admissible (permutation) set-iteration orders may differ between the two
runs.  In general the claim fails: with a loop condition reading two
variables, the loop header's phi order follows the hash map's unspecified
iteration order (see the counterexample). -/
theorem claim4_deterministic_without_loops :
    ∀ (b : Block) (σe σe2 : Env → Env)
      (σf σf2 : List FunctionCall → List FunctionCall),
      noWhileB b = true →
      (∀ l, List.Perm (σf l) l) →
      (∀ l, List.Perm (σf2 l) l) →
      (∀ fs, findFuncsB b = .ok fs → fs.length ≤ 1) →
      genModule σe σf b = genModule σe2 σf2 b := by
  intro b σe σe2 σf σf2 hnw hp1 hp2 hlen
  cases hf : findFuncsB b with
  | error e =>
    have d1 : declFuncs σf b st0 = (st0, .error e) := by simp [declFuncs, hf]
    have d2 : declFuncs σf2 b st0 = (st0, .error e) := by simp [declFuncs, hf]
    rw [genModule_decl_error d1, genModule_decl_error d2]
  | ok fs =>
    have hfs1 : σf fs = fs := permFix (hp1 fs) (hlen fs hf)
    have hfs2 : σf2 fs = fs := permFix (hp2 fs) (hlen fs hf)
    have d1 : declFuncs σf b st0 = declLoop fs st0 := by
      simp [declFuncs, hf, hfs1]
    have d2 : declFuncs σf2 b st0 = declLoop fs st0 := by
      simp [declFuncs, hf, hfs2]
    rcases hdl : declLoop fs st0 with ⟨st1, rd⟩
    cases rd with
    | error e =>
      rw [genModule_decl_error (d1.trans hdl),
          genModule_decl_error (d2.trans hdl)]
    | ok u =>
      rw [genModule_decl_ok (d1.trans hdl), genModule_decl_ok (d2.trans hdl)]
      unfold initModule
      simp only [buildBlock_sigma σe σe2 b hnw]

/-- Witness for `claim4_deterministic_without_loops`: the loop-free program
`PC7` lowers identically under the identity and the reversed iteration
orders. -/
theorem claim4_witness :
    genModule idOrd idOrd PC7 = genModule revOrd idOrd PC7 :=
  claim4_deterministic_without_loops PC7 idOrd revOrd idOrd idOrd
    (by decide) (fun l => List.Perm.refl l) (fun l => List.Perm.refl l)
    (by
      intro fs h
      have h2 : Except.ok ([] : List FunctionCall) = .ok fs := h
      injection h2 with h3
      rw [← h3]
      decide)

/-! ## Claim C1 — compiler correctness on the Let-and-arithmetic fragment -/

/-- Running a concatenation of straight-line instructions runs the pieces in
sequence. -/
theorem runList_append :
    ∀ {l1 : List (Nat × Instr)} {l2 : List (Nat × Instr)} {r : Regs} {m : Mem}
      {r1 : Regs} {m1 : Mem}, runList l1 r m = some (r1, m1) →
      runList (l1 ++ l2) r m = runList l2 r1 m1 := by
  intro l1
  induction l1 with
  | nil =>
    intro l2 r m r1 m1 h
    simp only [runList] at h
    injection h with h2
    injection h2 with h3 h4
    subst h3; subst h4
    rfl
  | cons hd rest ih =>
    intro l2 r m r1 m1 h
    obtain ⟨id, ins⟩ := hd
    simp only [runList] at h
    cases hs : step (id, ins) r m with
    | none => rw [hs] at h; cases h
    | some p =>
      obtain ⟨r2, m2⟩ := p
      rw [hs] at h
      simp only [List.cons_append, runList, hs]
      exact ih h

/-- Running up to the `ret` after a successfully executed straight-line
piece continues from its registers and memory. -/
theorem runStraight_append :
    ∀ {l1 : List (Nat × Instr)} {l2 : List (Nat × Instr)} {r : Regs} {m : Mem}
      {r1 : Regs} {m1 : Mem}, runList l1 r m = some (r1, m1) →
      runStraight (l1 ++ l2) r m = runStraight l2 r1 m1 := by
  intro l1
  induction l1 with
  | nil =>
    intro l2 r m r1 m1 h
    simp only [runList] at h
    injection h with h2
    injection h2 with h3 h4
    subst h3; subst h4
    rfl
  | cons hd rest ih =>
    intro l2 r m r1 m1 h
    obtain ⟨id, ins⟩ := hd
    simp only [runList] at h
    cases hs : step (id, ins) r m with
    | none => rw [hs] at h; cases h
    | some p =>
      obtain ⟨r2, m2⟩ := p
      rw [hs] at h
      simp only [List.cons_append, runStraight]
      split
      · simp [step] at hs
      · rw [hs]
        exact ih h

/-- Extension is reflexive. -/
theorem ExtR_refl (r : Regs) : ExtR r r := fun _ _ h => h

/-- Extension is transitive. -/
theorem ExtR_trans {a b c : Regs} (h1 : ExtR a b) (h2 : ExtR b c) :
    ExtR a c := fun i x h => h2 i x (h1 i x h)

/-- Prepending a fresh id extends the register file. -/
theorem ExtR_push {r : Regs} {c : Nat} {x : XVal} (hb : IdsBelow r c) :
    ExtR r ((c, x) :: r) := by
  intro i y h
  have hlt : i < c := hb i y h
  simp only [lookupR, if_neg (Nat.ne_of_gt hlt)]
  exact h

/-- Operand evaluation is stable under register-file extension. -/
theorem evalOp_mono {r r2 : Regs} (h : ExtR r r2) :
    ∀ {v : Val} {x : XVal}, evalOp r v = some x → evalOp r2 v = some x := by
  intro v x hv
  cases v with
  | constInt z => exact hv
  | ref i => exact h i x hv
  | funcref s => simp [evalOp] at hv

/-- Integer operand evaluation is stable under extension. -/
theorem evalInt_mono {r r2 : Regs} (h : ExtR r r2) {v : Val} {z : Int}
    (hv : evalInt r v = some z) : evalInt r2 v = some z := by
  unfold evalInt at hv ⊢
  cases he : evalOp r v with
  | none => rw [he] at hv; cases hv
  | some x =>
    rw [he] at hv
    rw [evalOp_mono h he]
    exact hv

/-- The simulation relation is stable under register-file extension. -/
theorem EnvRel_mono {envC : Env} {envI : IEnv} {regs regs2 : Regs}
    (hext : ExtR regs regs2) (h : EnvRel envC envI regs) :
    EnvRel envC envI regs2 := by
  intro n
  obtain ⟨h1, h2, h3⟩ := h n
  refine ⟨?_, h2, h3⟩
  intro v k hv
  obtain ⟨z, hz1, hz2⟩ := h1 v k hv
  exact ⟨z, hz1, evalOp_mono hext hz2⟩

/-- Lookup after insert in the compile-time environment. -/
theorem lookupE_insertE :
    ∀ (env : Env) (n : String) (p : Val × Levity) (m : String),
      lookupE (insertE env n p) m
        = if n = m then some p else lookupE env m := by
  intro env n p
  induction env with
  | nil =>
    intro m
    by_cases hm : n = m <;> simp [insertE, lookupE, hm]
  | cons kv rest ih =>
    intro m
    obtain ⟨k, q⟩ := kv
    by_cases hk : k = n
    · subst hk
      by_cases hm : k = m <;> simp [insertE, lookupE, hm]
    · by_cases hm : k = m
      · subst hm
        have hnm : ¬ n = k := fun hh => hk hh.symm
        simp [insertE, lookupE, hk, hnm]
      · simp [insertE, lookupE, hk, hm, ih m]

/-- Lookup after insert in the interpreter environment. -/
theorem lookupI_insertI :
    ∀ (env : IEnv) (n : String) (z : Int) (m : String),
      lookupI (insertI env n z)  m
        = if n = m then some z else lookupI env m := by
  intro env n z
  induction env with
  | nil =>
    intro m
    by_cases hm : n = m <;> simp [insertI, lookupI, hm]
  | cons kv rest ih =>
    intro m
    obtain ⟨k, q⟩ := kv
    by_cases hk : k = n
    · subst hk
      by_cases hm : k = m <;> simp [insertI, lookupI, hm]
    · by_cases hm : k = m
      · subst hm
        have hnm : ¬ n = k := fun hh => hk hh.symm
        simp [insertI, lookupI, hk, hnm]
      · simp [insertI, lookupI, hk, hm, ih m]

/-- Binding a fresh `Unboxed` value in step with the interpreter preserves
the simulation relation (the `Unboxed` payload is irrelevant: it is never
read). -/
theorem EnvRel_insert {envC : Env} {envI : IEnv} {regs : Regs}
    (h : EnvRel envC envI regs) {n : String} {v : Val} {k z : Int}
    (hv : evalOp regs v = some (.int z)) :
    EnvRel (insertE envC n (v, .Unboxed k)) (insertI envI n z) regs := by
  intro m
  by_cases hm : n = m
  · subst hm
    refine ⟨?_, ?_, ?_⟩
    · intro v2 k2 hv2
      rw [lookupE_insertE, if_pos rfl] at hv2
      injection hv2 with hv3
      injection hv3 with hv4 hv5
      subst hv4
      exact ⟨z, by rw [lookupI_insertI, if_pos rfl], hv⟩
    · intro h0
      rw [lookupE_insertE, if_pos rfl] at h0
      cases h0
    · intro v2 hb
      rw [lookupE_insertE, if_pos rfl] at hb
      injection hb with hb2
      injection hb2 with hb3 hb4
      cases hb4
  · obtain ⟨h1, h2, h3⟩ := h m
    refine ⟨?_, ?_, ?_⟩
    · intro v2 k2 hv2
      rw [lookupE_insertE, if_neg hm] at hv2
      obtain ⟨z2, hz1, hz2⟩ := h1 v2 k2 hv2
      exact ⟨z2, by rw [lookupI_insertI, if_neg hm]; exact hz1, hz2⟩
    · intro h0
      rw [lookupE_insertE, if_neg hm] at h0
      rw [lookupI_insertI, if_neg hm]
      exact h2 h0
    · intro v2 hb
      rw [lookupE_insertE, if_neg hm] at hb
      exact h3 v2 hb

/-- Emitting one instruction that executes to a fresh register preserves the
entry-block well-formedness. -/
theorem WFemit {st : St} {regs : Regs} {i : Instr} {xv : XVal}
    (hwf : WFent st regs)
    (hstep : step (st.counter, i) regs [] = some ((st.counter, xv) :: regs, [])) :
    WFent (emit st i).1 ((st.counter, xv) :: regs) ∧
      ExtR regs ((st.counter, xv) :: regs) := by
  obtain ⟨hcur, l, hbl, hrun, hbelow⟩ := hwf
  refine ⟨⟨hcur, l ++ [(st.counter, i)], ?_, ?_, ?_⟩, ExtR_push hbelow⟩
  · simp [emit, hbl, hcur, addInstr]
  · rw [runList_append hrun]
    simp [runList, hstep]
  · intro j y hj
    by_cases hji : st.counter = j
    · subst hji
      simp [emit]
    · rw [lookupR, if_neg hji] at hj
      have := hbelow j y hj
      simp only [emit]
      omega

/-- Fragment expressions contain no calls. -/
theorem findFuncsT_pure : ∀ (t : Term), pureTerm t = true → findFuncsT t = .ok []
  | .Literal i, hp => rfl
  | .Var n, hp => rfl
  | .Infix l op r, hp => by
    simp only [pureTerm, Bool.and_eq_true] at hp
    simp [findFuncsT, findFuncsT_pure l hp.1, findFuncsT_pure r hp.2, unionFC]
  | .Call fc args, hp => by simp [pureTerm] at hp
  | .Scope blk, hp => by simp [pureTerm] at hp
  | .While cond blk, hp => by simp [pureTerm] at hp

/-- Fragment statement sequences contribute no calls. -/
theorem findFuncsSs_pure :
    ∀ (ss : StmtList), letStmts ss = true →
      ∀ acc, findFuncsSs ss acc = .ok acc
  | .nil, hp, acc => rfl
  | .cons (.Let n r) rest, hp, acc => by
    simp only [letStmts, Bool.and_eq_true] at hp
    simp [findFuncsSs, findFuncsS, findFuncsT_pure r hp.1, unionFC,
          findFuncsSs_pure rest hp.2]
  | .cons (.TermSemicolon t) rest, hp, acc => by simp [letStmts] at hp
  | .cons (.LetMut n r) rest, hp, acc => by simp [letStmts] at hp
  | .cons (.Mutate n r) rest, hp, acc => by simp [letStmts] at hp

/-- A fragment program discovers no callees. -/
theorem findFuncsB_pure (b : Block) (hp : letBlock b = true) :
    findFuncsB b = .ok [] := by
  obtain ⟨ss, e⟩ := b
  simp only [letBlock, Bool.and_eq_true] at hp
  simp [findFuncsB, findFuncsSs_pure ss hp.1 [], findFuncsT_pure e hp.2,
        unionFC]

/-- Simulation for fragment expressions: lowering fails exactly when the
reference interpreter does, and a successful lowering emits straight-line
code whose execution extends the register file so that the produced value
reference evaluates to the interpreter's integer. -/
theorem simT (σ : Env → Env) (entry : Nat) :
    ∀ (t : Term), pureTerm t = true →
    ∀ (envC : Env) (envI : IEnv) (st : St) (regs : Regs),
      EnvRel envC envI regs → WFent st regs →
      (∀ st2 e, buildTerm σ entry t envC st = (st2, .error e) →
        interpTerm t envI = none) ∧
      (∀ st2 v, buildTerm σ entry t envC st = (st2, .ok v) →
        ∃ z regs2, interpTerm t envI = some z ∧ WFent st2 regs2 ∧
          ExtR regs regs2 ∧ evalOp regs2 v = some (.int z))
  | .Literal i, hp, envC, envI, st, regs, hrel, hwf => by
    constructor
    · intro st2 e h
      simp only [buildTerm] at h
      injection h with h1 h2
      cases h2
    · intro st2 v h
      simp only [buildTerm] at h
      injection h with h1 h2
      injection h2 with h3
      subst h1; subst h3
      exact ⟨wrap i, regs, rfl, hwf, ExtR_refl regs, rfl⟩
  | .Var n, hp, envC, envI, st, regs, hrel, hwf => by
    obtain ⟨h1, h2, h3⟩ := hrel n
    constructor
    · intro st2 e h
      cases hl : lookupE envC n with
      | none =>
        simp only [interpTerm]
        exact h2 hl
      | some p =>
        obtain ⟨v1, lev⟩ := p
        cases lev with
        | Boxed => exact absurd hl (h3 v1)
        | Unboxed k =>
          simp only [buildTerm, hl] at h
          injection h with h4 h5
          cases h5
    · intro st2 v h
      cases hl : lookupE envC n with
      | none =>
        simp only [buildTerm, hl] at h
        injection h with h4 h5
        cases h5
      | some p =>
        obtain ⟨v1, lev⟩ := p
        cases lev with
        | Boxed => exact absurd hl (h3 v1)
        | Unboxed k =>
          simp only [buildTerm, hl] at h
          injection h with h4 h5
          injection h5 with h6
          subst h4; subst h6
          obtain ⟨z, hz1, hz2⟩ := h1 v1 k hl
          exact ⟨z, regs, by simpa [interpTerm] using hz1, hwf,
                 ExtR_refl regs, hz2⟩
  | .Infix l op r, hp, envC, envI, st, regs, hrel, hwf => by
    simp only [pureTerm, Bool.and_eq_true] at hp
    have ihl := simT σ entry l hp.1 envC envI st regs hrel hwf
    constructor
    · intro st2 e h
      rcases hbl : buildTerm σ entry l envC st with ⟨st1, res1⟩
      cases res1 with
      | error e1 =>
        have hnone := ihl.1 st1 e1 hbl
        simp only [interpTerm, hnone]
      | ok lv =>
        obtain ⟨z1, regs1, hiz1, hwf1, hext1, hev1⟩ := ihl.2 st1 lv hbl
        have ihr := simT σ entry r hp.2 envC envI st1 regs1
          (EnvRel_mono hext1 hrel) hwf1
        rcases hbr : buildTerm σ entry r envC st1 with ⟨st2x, res2⟩
        cases res2 with
        | error e2 =>
          have hnone := ihr.1 st2x e2 hbr
          simp only [interpTerm, hiz1, hnone]
        | ok rv =>
          cases op <;> simp [buildTerm, hbl, hbr] at h
    · intro st2 v h
      rcases hbl : buildTerm σ entry l envC st with ⟨st1, res1⟩
      cases res1 with
      | error e1 => simp [buildTerm, hbl] at h
      | ok lv =>
        obtain ⟨z1, regs1, hiz1, hwf1, hext1, hev1⟩ := ihl.2 st1 lv hbl
        have ihr := simT σ entry r hp.2 envC envI st1 regs1
          (EnvRel_mono hext1 hrel) hwf1
        rcases hbr : buildTerm σ entry r envC st1 with ⟨st2x, res2⟩
        cases res2 with
        | error e2 => simp [buildTerm, hbl, hbr] at h
        | ok rv =>
          obtain ⟨z2, regs2, hiz2, hwf2, hext2, hev2⟩ := ihr.2 st2x rv hbr
          have hev1b : evalOp regs2 lv = some (.int z1) :=
            evalOp_mono hext2 hev1
          have hev1i : evalInt regs2 lv = some z1 := by
            simp [evalInt, hev1b]
          have hev2i : evalInt regs2 rv = some z2 := by
            simp [evalInt, hev2]
          cases op with
          | Add =>
            simp only [buildTerm, hbl, hbr] at h
            injection h with h1 h2
            injection h2 with h3
            subst h1; subst h3
            have hstep : step (st2x.counter, Instr.add lv rv "add") regs2 []
                = some ((st2x.counter, .int (add32 z1 z2)) :: regs2, []) := by
              simp [step, hev1i, hev2i]
            obtain ⟨hwf3, hext3⟩ := WFemit hwf2 hstep
            refine ⟨add32 z1 z2,
              (st2x.counter, XVal.int (add32 z1 z2)) :: regs2,
              ?_, hwf3, ExtR_trans hext1 (ExtR_trans hext2 hext3), ?_⟩
            · simp only [interpTerm, hiz1, hiz2, opSem]
            · simp [emit, evalOp, lookupR]
          | Sub =>
            simp only [buildTerm, hbl, hbr] at h
            injection h with h1 h2
            injection h2 with h3
            subst h1; subst h3
            have hstep : step (st2x.counter, Instr.sub lv rv "sub") regs2 []
                = some ((st2x.counter, .int (sub32 z1 z2)) :: regs2, []) := by
              simp [step, hev1i, hev2i]
            obtain ⟨hwf3, hext3⟩ := WFemit hwf2 hstep
            refine ⟨sub32 z1 z2,
              (st2x.counter, XVal.int (sub32 z1 z2)) :: regs2,
              ?_, hwf3, ExtR_trans hext1 (ExtR_trans hext2 hext3), ?_⟩
            · simp only [interpTerm, hiz1, hiz2, opSem]
            · simp [emit, evalOp, lookupR]
          | Mul =>
            simp only [buildTerm, hbl, hbr] at h
            injection h with h1 h2
            injection h2 with h3
            subst h1; subst h3
            have hstep : step (st2x.counter, Instr.mul lv rv "mul") regs2 []
                = some ((st2x.counter, .int (mul32 z1 z2)) :: regs2, []) := by
              simp [step, hev1i, hev2i]
            obtain ⟨hwf3, hext3⟩ := WFemit hwf2 hstep
            refine ⟨mul32 z1 z2,
              (st2x.counter, XVal.int (mul32 z1 z2)) :: regs2,
              ?_, hwf3, ExtR_trans hext1 (ExtR_trans hext2 hext3), ?_⟩
            · simp only [interpTerm, hiz1, hiz2, opSem]
            · simp [emit, evalOp, lookupR]
          | Div =>
            simp only [buildTerm, hbl, hbr] at h
            injection h with h1 h2
            injection h2 with h3
            subst h1; subst h3
            have hstep : step (st2x.counter, Instr.sdiv lv rv "div") regs2 []
                = some ((st2x.counter, .int (sdiv32 z1 z2)) :: regs2, []) := by
              simp [step, hev1i, hev2i]
            obtain ⟨hwf3, hext3⟩ := WFemit hwf2 hstep
            refine ⟨sdiv32 z1 z2,
              (st2x.counter, XVal.int (sdiv32 z1 z2)) :: regs2,
              ?_, hwf3, ExtR_trans hext1 (ExtR_trans hext2 hext3), ?_⟩
            · simp only [interpTerm, hiz1, hiz2, opSem]
            · simp [emit, evalOp, lookupR]
  | .Call fc args, hp, envC, envI, st, regs, hrel, hwf => by
    simp [pureTerm] at hp
  | .Scope blk, hp, envC, envI, st, regs, hrel, hwf => by
    simp [pureTerm] at hp
  | .While cond blk, hp, envC, envI, st, regs, hrel, hwf => by
    simp [pureTerm] at hp

/-- Simulation for fragment statement sequences (`Let`-only): the compiled
environment stays in step with the interpreter's. -/
theorem simStmts (σ : Env → Env) (entry : Nat) :
    ∀ (ss : StmtList), letStmts ss = true →
    ∀ (envC : Env) (envI : IEnv) (st : St) (regs : Regs),
      EnvRel envC envI regs → WFent st regs →
      (∀ st2 e, buildStmts σ entry ss envC st = (st2, .error e) →
        interpStmts ss envI = none) ∧
      (∀ st2 envC2, buildStmts σ entry ss envC st = (st2, .ok envC2) →
        ∃ envI2 regs2, interpStmts ss envI = some envI2 ∧ WFent st2 regs2 ∧
          ExtR regs regs2 ∧ EnvRel envC2 envI2 regs2)
  | .nil, hp, envC, envI, st, regs, hrel, hwf => by
    constructor
    · intro st2 e h
      simp only [buildStmts] at h
      injection h with h1 h2
      cases h2
    · intro st2 envC2 h
      simp only [buildStmts] at h
      injection h with h1 h2
      injection h2 with h3
      subst h1; subst h3
      exact ⟨envI, regs, rfl, hwf, ExtR_refl regs, hrel⟩
  | .cons (.Let n r) rest, hp, envC, envI, st, regs, hrel, hwf => by
    simp only [letStmts, Bool.and_eq_true] at hp
    have ihr := simT σ entry r hp.1 envC envI st regs hrel hwf
    constructor
    · intro st2 e h
      rcases hbr : buildTerm σ entry r envC st with ⟨st1, res1⟩
      cases res1 with
      | error e1 =>
        have hnone := ihr.1 st1 e1 hbr
        simp only [interpStmts, hnone]
      | ok v =>
        obtain ⟨z, regs1, hiz, hwf1, hext1, hev⟩ := ihr.2 st1 v hbr
        simp only [buildStmts, hbr] at h
        have ihrest := simStmts σ entry rest hp.2
          (insertE envC n (v, .Unboxed (constIntGetSExtValue v)))
          (insertI envI n z) st1 regs1
          (EnvRel_insert (EnvRel_mono hext1 hrel) hev) hwf1
        have hnone := ihrest.1 st2 e h
        simp only [interpStmts, hiz, hnone]
    · intro st2 envC2 h
      rcases hbr : buildTerm σ entry r envC st with ⟨st1, res1⟩
      cases res1 with
      | error e1 => simp [buildStmts, hbr] at h
      | ok v =>
        obtain ⟨z, regs1, hiz, hwf1, hext1, hev⟩ := ihr.2 st1 v hbr
        simp only [buildStmts, hbr] at h
        have ihrest := simStmts σ entry rest hp.2
          (insertE envC n (v, .Unboxed (constIntGetSExtValue v)))
          (insertI envI n z) st1 regs1
          (EnvRel_insert (EnvRel_mono hext1 hrel) hev) hwf1
        obtain ⟨envI2, regs2, hi2, hwf2, hext2, hrel2⟩ :=
          ihrest.2 st2 envC2 h
        refine ⟨envI2, regs2, ?_, hwf2, ExtR_trans hext1 hext2, hrel2⟩
        simp only [interpStmts, hiz]
        exact hi2
  | .cons (.TermSemicolon t) rest, hp, envC, envI, st, regs, hrel, hwf => by
    simp [letStmts] at hp
  | .cons (.LetMut n r) rest, hp, envC, envI, st, regs, hrel, hwf => by
    simp [letStmts] at hp
  | .cons (.Mutate n r) rest, hp, envC, envI, st, regs, hrel, hwf => by
    simp [letStmts] at hp

/-- Simulation for fragment programs. -/
theorem simBlock (σ : Env → Env) (entry : Nat) :
    ∀ (b : Block), letBlock b = true →
    ∀ (envC : Env) (envI : IEnv) (st : St) (regs : Regs),
      EnvRel envC envI regs → WFent st regs →
      (∀ st2 e, buildBlock σ entry b envC st = (st2, .error e) →
        interpBlock b envI = none) ∧
      (∀ st2 v, buildBlock σ entry b envC st = (st2, .ok v) →
        ∃ z regs2, interpBlock b envI = some z ∧ WFent st2 regs2 ∧
          ExtR regs regs2 ∧ evalOp regs2 v = some (.int z))
  | .mk ss e, hp, envC, envI, st, regs, hrel, hwf => by
    simp only [letBlock, Bool.and_eq_true] at hp
    have ihs := simStmts σ entry ss hp.1 envC envI st regs hrel hwf
    constructor
    · intro st2 er h
      rcases hbs : buildStmts σ entry ss envC st with ⟨st1, res1⟩
      cases res1 with
      | error e1 =>
        have hnone := ihs.1 st1 e1 hbs
        simp only [interpBlock, hnone]
      | ok envC1 =>
        obtain ⟨envI1, regs1, hi1, hwf1, hext1, hrel1⟩ := ihs.2 st1 envC1 hbs
        simp only [buildBlock, hbs] at h
        have ihe := simT σ entry e hp.2 envC1 envI1 st1 regs1 hrel1 hwf1
        have hnone := ihe.1 st2 er h
        simp only [interpBlock, hi1, hnone]
    · intro st2 v h
      rcases hbs : buildStmts σ entry ss envC st with ⟨st1, res1⟩
      cases res1 with
      | error e1 => simp [buildBlock, hbs] at h
      | ok envC1 =>
        obtain ⟨envI1, regs1, hi1, hwf1, hext1, hrel1⟩ := ihs.2 st1 envC1 hbs
        simp only [buildBlock, hbs] at h
        have ihe := simT σ entry e hp.2 envC1 envI1 st1 regs1 hrel1 hwf1
        obtain ⟨z, regs2, hiz, hwf2, hext2, hev⟩ := ihe.2 st2 v h
        refine ⟨z, regs2, ?_, hwf2, ExtR_trans hext1 hext2, hev⟩
        simp only [interpBlock, hi1]
        exact hiz

/-- Unfolding `init_module` against the result of the body build. -/
theorem initModule_build :
    ∀ (σ : Env → Env) (b : Block) (st st3 : St)
      (res : Except (List String) Val),
      buildBlock σ (appendBlock st "entry").2 b []
        (setCur (appendBlock st "entry").1 (appendBlock st "entry").2)
        = (st3, res) →
      initModule σ b st
        = (match res with
           | .error es => .error es
           | .ok v => .ok (emitD st3 (.ret v))) := by
  intro σ b st st3 res hbb
  unfold initModule
  rcases happ : appendBlock st "entry" with ⟨st1x, eB⟩
  simp only [happ] at hbb ⊢
  rw [hbb]
  cases res <;> rfl

/-- C1: for every program of the Let-and-arithmetic fragment (statements are
immutable `Let` bindings only; expressions are literals, variables and the
arithmetic infix operators), compiling with `gen_module` and executing the
entry function of the produced module returns exactly the integer the
reference interpreter computes (and compilation fails exactly when the
interpreter does, namely on an undeclared variable).  Quantified over any
set-iteration order `σf` that is a permutation, and any environment order
`σ` (never consulted on this fragment). -/
theorem claim1_compiled_matches_interpreter :
    ∀ (b : Block) (σ : Env → Env)
      (σf : List FunctionCall → List FunctionCall),
      letBlock b = true → (∀ l, List.Perm (σf l) l) →
      execGen σ σf b = interpBlock b [] := by
  intro b σ σf hb hperm
  have hff := findFuncsB_pure b hb
  have hσf : σf ([] : List FunctionCall) = [] := List.perm_nil.mp (hperm [])
  have hdecl : declFuncs σf b st0 = (st0, .ok ()) := by
    simp [declFuncs, hff, hσf, declLoop]
  have hgen : genModule σ σf b = initModule σ b st0 := genModule_decl_ok hdecl
  have hwf0 : WFent stEntry [] := by
    refine ⟨rfl, [], rfl, rfl, ?_⟩
    intro i x h
    simp [lookupR] at h
  have hrel0 : EnvRel [] [] [] := by
    intro n
    refine ⟨?_, fun _ => rfl, ?_⟩
    · intro v k h
      simp [lookupE] at h
    · intro v h
      simp [lookupE] at h
  have hsim := simBlock σ 0 b hb [] [] stEntry [] hrel0 hwf0
  rcases hbb : buildBlock σ 0 b [] stEntry with ⟨st3, res⟩
  have hbb2 : buildBlock σ (appendBlock st0 "entry").2 b []
      (setCur (appendBlock st0 "entry").1 (appendBlock st0 "entry").2)
      = (st3, res) := hbb
  have hi := initModule_build σ b st0 st3 res hbb2
  cases res with
  | error es =>
    have hnone := hsim.1 st3 es hbb
    simp only [execGen, hgen, hi, hnone]
  | ok v =>
    obtain ⟨z, regs2, hiz, hwf3, hext, hev⟩ := hsim.2 st3 v hbb
    obtain ⟨hcur, l, hbl, hrun, hbelow⟩ := hwf3
    have hevi : evalInt regs2 v = some z := by simp [evalInt, hev]
    have hblocks2 : (emitD st3 (Instr.ret v)).blocks
        = [⟨0, "entry", l ++ [(st3.counter, Instr.ret v)]⟩] := by
      simp [emitD, emit, hbl, hcur, addInstr]
    have hexec : execMain (emitD st3 (Instr.ret v)) = some z := by
      unfold execMain
      rw [hblocks2]
      simp [List.find?]
      rw [runStraight_append hrun]
      simp [runStraight, hevi]
    simp only [execGen, hgen, hi, hexec, hiz]

/-- Witness for `claim1_compiled_matches_interpreter` at the fragment
program `let x = 3; x + 4`. -/
theorem claim1_witness :
    letBlock (Block.mk (.cons (.Let "x" (.Literal 3)) .nil)
        (.Infix (.Var "x") .Add (.Literal 4))) = true ∧
    execGen idOrd idOrd (Block.mk (.cons (.Let "x" (.Literal 3)) .nil)
        (.Infix (.Var "x") .Add (.Literal 4)))
      = interpBlock (Block.mk (.cons (.Let "x" (.Literal 3)) .nil)
          (.Infix (.Var "x") .Add (.Literal 4))) [] :=
  ⟨by decide,
   claim1_compiled_matches_interpreter
     (Block.mk (.cons (.Let "x" (.Literal 3)) .nil)
       (.Infix (.Var "x") .Add (.Literal 4))) idOrd idOrd (by decide)
     (fun l => List.Perm.refl l)⟩

end Ende
